import Mathlib

/-!
Verification of the ClauseCopilot core pipeline against its specification.

This file gives a shallow embedding, in Lean 4, of the three algorithmic
components of the repository:

* `src/core/chunking.py`  — the Segmenter (`chunk_text`, `_split_at_sentence`,
  `_split_large_chunk`, the `SECTION_RE` / `SENTENCE_END_RE` heuristics);
* `src/core/agents.py`    — the structured-output Extractor
  (`_extract_json_obj`, including a model of Python's `json.loads` on the
  JSON fragment the repository exercises) and the retrying Invoker
  (`run_risk_review` under `tenacity.retry`);
* `src/core/retrieval.py` — the Evidence Selector
  (`retrieve_evidence_for_risk`).

Strings are modelled as `List Char`.  Python's whitespace handling
(`str.strip`, the regex class `\s`) is modelled over the ASCII whitespace
characters, which are the only whitespace characters the programme's own
data paths produce.  Each definition is translated from the Python source;
comments cite the source lines.
-/

namespace ClauseCopilot

/-- Strings are modelled as lists of characters. -/
abbrev Str := List Char

/-- Python whitespace (`str.strip`, regex `\s`), restricted to ASCII. -/
def isSpace (c : Char) : Bool :=
  c = ' ' || c = '\t' || c = '\n' || c = '\r' || c = '\x0b' || c = '\x0c'

/-- Python `str.lstrip()`. -/
def lstrip (s : Str) : Str := s.dropWhile isSpace

/-- Python `str.rstrip()`. -/
def rstrip (s : Str) : Str := (s.reverse.dropWhile isSpace).reverse

/-- Python `str.strip()`. -/
def strip (s : Str) : Str := rstrip (lstrip s)

/-- Python `str.splitlines()`, modelled as splitting on `'\n'`.
(The code strips every line and discards blank ones, so the further line
separators Python recognises do not change `chunk_text`'s behaviour on the
inputs modelled here.) -/
def splitNl : Str → List Str
  | [] => [[]]
  | c :: rest =>
    let r := splitNl rest
    if c = '\n' then [] :: r
    else
      match r with
      | [] => [[c]]
      | h :: t => (c :: h) :: t

/-- Python `"\n".join(...)`. -/
def joinNl : List Str → Str
  | [] => []
  | [x] => x
  | x :: y :: r => x ++ '\n' :: joinNl (y :: r)

/-- `sum(len(x) for x in current_lines)` — chunking.py line 89. -/
def sumLen (xs : List Str) : Nat := (xs.map List.length).sum

/-- Regex `\d`, ASCII. -/
def isDigit (c : Char) : Bool := '0' ≤ c && c ≤ '9'

/-- Regex class `[A-Z]`. -/
def isUpperAZ (c : Char) : Bool := 'A' ≤ c && c ≤ 'Z'

/-- Helper for `SECTION_RE`'s first alternative `(\d+(\.\d+)*)\s+`:
consume the repeated groups `(\.\d+)*` after the initial digit run.
The fuel argument bounds recursion; it is instantiated with the string
length, which always suffices since each step consumes characters. -/
def skipDotGroups : Nat → Str → Str
  | 0, s => s
  | f + 1, s =>
    match s with
    | '.' :: r =>
      match r with
      | c :: _ =>
        if isDigit c then skipDotGroups f (r.dropWhile isDigit) else s
      | [] => s
    | _ => s

/-- `SECTION_RE` alternative 1: `(\d+(\.\d+)*)\s+` anchored at `p`. -/
def matchNumeric (p : Str) : Bool :=
  let ds := p.takeWhile isDigit
  if ds = [] then false
  else
    match skipDotGroups p.length (p.dropWhile isDigit) with
    | c :: _ => isSpace c
    | [] => false

/-- `SECTION_RE` alternative 2: `SECTION\s+\d+` anchored at `p`. -/
def matchSectionWord (p : Str) : Bool :=
  if ("SECTION".toList).isPrefixOf p then
    match p.drop 7 with
    | c :: r =>
      isSpace c &&
        (match (c :: r).dropWhile isSpace with
         | d :: _ => isDigit d
         | [] => false)
    | [] => false
  else false

/-- `SECTION_RE` alternative 3: `[A-Z][A-Z\s]{4,}` anchored at `p`. -/
def matchUpperRun (p : Str) : Bool :=
  match p with
  | c :: r => isUpperAZ c && decide (4 ≤ (r.takeWhile (fun d => isUpperAZ d || isSpace d)).length)
  | [] => false

/-- `SECTION_RE.match(ln)` — chunking.py line 6:
`^\s*((\d+(\.\d+)*)\s+|SECTION\s+\d+|[A-Z][A-Z\s]{4,})`.
None of the three alternatives can start with a whitespace character, so the
greedy `\s*` prefix is forced to consume the maximal leading run. -/
def sectionMatch (ln : Str) : Bool :=
  let p := ln.dropWhile isSpace
  matchNumeric p || matchSectionWord p || matchUpperRun p

/-- The heading test of chunking.py line 81:
`SECTION_RE.match(ln) and len(ln) <= 80`. -/
def headingCandidate (ln : Str) : Bool :=
  sectionMatch ln && decide (ln.length ≤ 80)

/-- Regex class `[.!?]` of `SENTENCE_END_RE` — chunking.py line 9. -/
def isSentencePunct (c : Char) : Bool := c = '.' || c = '!' || c = '?'

/-- Start positions of the (non-overlapping) matches of `[.!?]\s+` in `w`:
a match starts exactly at each position holding sentence punctuation followed
by a whitespace character, since the whitespace run of one match can contain
no punctuation and hence no later match start. -/
def punctPositions (w : Str) : List Nat :=
  (List.range w.length).filter
    (fun i => isSentencePunct (w.getD i ' ') && decide (i + 1 < w.length) && isSpace (w.getD (i + 1) 'x'))

/-- `match.end()` of the last `SENTENCE_END_RE.finditer` match in `w`
(chunking.py lines 20-24): the greedy `\s+` of the last match extends over
the maximal whitespace run following its punctuation character. -/
def lastMatchEnd (w : Str) : Option Nat :=
  match (punctPositions w).getLast? with
  | none => none
  | some i => some (i + 1 + ((w.drop (i + 1)).takeWhile isSpace).length)

/-- `_split_at_sentence` — chunking.py lines 15-26. -/
def splitAtSentence (t : Str) (maxLen : Nat) : Str × Str :=
  if t.length ≤ maxLen then (t, [])
  else
    let window := t.take (maxLen + 1)
    match lastMatchEnd window with
    | some e => (strip (t.take e), strip (t.drop e))
    | none => (strip (t.take maxLen), strip (t.drop maxLen))

/-- A produced segment: Python dict `{"section": ..., "text": ...}`.
(`section` is a Lean keyword, so the field is named `sec`.) -/
structure Chunk where
  sec : Str
  text : Str
deriving DecidableEq

/-- The `"UNKNOWN"` sentinel label. -/
def unknownLabel : Str := "UNKNOWN".toList

/-- The `" (cont.)"` suffix of continuation labels (chunking.py line 45). -/
def contSuffix : Str := " (cont.)".toList

/-- `flush()` — chunking.py lines 66-74, as used with no `extra_lines`:
append the joined, stripped buffer as a chunk when non-empty. -/
def flushChunks (title : Option Str) (cur : List Str) (chunks : List Chunk) : List Chunk :=
  if cur = [] then chunks
  else
    let c := strip (joinNl cur)
    if c = [] then chunks else chunks ++ [⟨title.getD unknownLabel, c⟩]

/-- The size-enforcing `while` loop of `chunk_text` — chunking.py lines 89-99.
The fuel argument bounds the recursion; callers pass the joined buffer
length plus one, which suffices for every `maxChars ≥ 1` because the joined
length strictly decreases at each iteration.  On fuel exhaustion
(unreachable for `maxChars ≥ 1`) the current state is returned unchanged. -/
def sizeLoop (maxChars : Nat) :
    Nat → Option Str → List Str → List Chunk → List Chunk × Option Str × List Str
  | 0, title, cur, chunks => (chunks, title, cur)
  | f + 1, title, cur, chunks =>
    if sumLen cur ≤ maxChars then (chunks, title, cur)
    else
      let t := joinNl cur
      let ba := splitAtSentence t maxChars
      let chunks2 := if ba.1 = [] then chunks else chunks ++ [⟨title.getD unknownLabel, ba.1⟩]
      if ba.2 = [] then (chunks2, none, [])
      else sizeLoop maxChars f title [ba.2] chunks2

/-- The per-line loop of `chunk_text` — chunking.py lines 76-99. -/
def mainLoop (maxChars : Nat) :
    List Str → Option Str → List Str → List Chunk → List Chunk × Option Str × List Str
  | [], title, cur, chunks => (chunks, title, cur)
  | ln :: rest, title, cur, chunks =>
    if ln = [] then mainLoop maxChars rest title cur chunks
    else
      match (if headingCandidate ln then
               (some ln, [ln], flushChunks title cur chunks)
             else (title, cur ++ [ln], chunks)) with
      | (title2, cur2, chunks2) =>
        match sizeLoop maxChars ((joinNl cur2).length + 1) title2 cur2 chunks2 with
        | (chunks3, title3, cur3) => mainLoop maxChars rest title3 cur3 chunks3

/-- Index of the last `'\n'` in `l`, if any. -/
def lastNlIdx (l : Str) : Option Nat :=
  ((List.range l.length).filter (fun i => l.getD i ' ' = '\n')).getLast?

/-- `re.split(r"\n\s*\n", text)` — chunking.py line 38.  A separator match
starts at a `'\n'` whose maximal following whitespace run contains another
`'\n'`; the greedy `\s*` extends the separator to the last `'\n'` of that
run.  Fuel is the string length plus one (each step consumes input). -/
def paraSplitAux : Nat → Str → Str → List Str
  | 0, acc, rest => [acc ++ rest]
  | _ + 1, acc, [] => [acc]
  | f + 1, acc, c :: r =>
    if c = '\n' then
      let run := r.takeWhile isSpace
      match lastNlIdx run with
      | some k => acc :: paraSplitAux f [] (r.drop (k + 1))
      | none => paraSplitAux f (acc ++ [c]) r
    else paraSplitAux f (acc ++ [c]) r

/-- `re.split(r"\n\s*\n", s)`. -/
def paraSplit (s : Str) : List Str := paraSplitAux (s.length + 1) [] s

/-- The continuation title `section if not out else f"{section} (cont.)"`
— chunking.py lines 45 and 49. -/
def contTitle (s : Str) (out : List Chunk) : Str :=
  if out = [] then s else s ++ contSuffix

/-- The inner `while len(part) > max_chars` loop of `_split_large_chunk`
— chunking.py lines 43-47.  Returns the grown output list and the final
remainder `part`.  Fuel: `part.length + 1` suffices for `maxChars ≥ 1`. -/
def partWhile (s : Str) (maxChars : Nat) :
    Nat → Str → List Chunk → List Chunk × Str
  | 0, part, out => (out, part)
  | f + 1, part, out =>
    if part.length ≤ maxChars then (out, part)
    else
      let ba := splitAtSentence part maxChars
      partWhile s maxChars f ba.2 (out ++ [⟨contTitle s out, ba.1⟩])

/-- The `for i, part in enumerate(parts)` loop of `_split_large_chunk`
— chunking.py lines 39-50. -/
def partsFold (s : Str) (maxChars : Nat) : List Str → List Chunk → List Chunk
  | [], out => out
  | p :: rest, out =>
    let part := strip p
    if part = [] then partsFold s maxChars rest out
    else
      match partWhile s maxChars (part.length + 1) part out with
      | (out2, lastPart) =>
        let out3 := if lastPart = [] then out2 else out2 ++ [⟨contTitle s out2, lastPart⟩]
        partsFold s maxChars rest out3

/-- `_split_large_chunk` — chunking.py lines 29-51. -/
def splitLargeChunk (c : Chunk) (maxChars : Nat) : List Chunk :=
  if c.text.length ≤ maxChars then [c]
  else
    let s := if c.sec = [] then unknownLabel else c.sec
    let out := partsFold s maxChars (paraSplit c.text) []
    if out = [] then [c] else out

/-- `chunk_text` — chunking.py lines 54-110. -/
def chunk_text (text : Str) (maxChars : Nat) : List Chunk :=
  let lines := (splitNl text).map strip
  match mainLoop maxChars lines none [] [] with
  | (chunks1, title, cur) =>
    let chunks := flushChunks title cur chunks1
    chunks.flatMap (fun c => if c.text.length ≤ maxChars then [c] else splitLargeChunk c maxChars)

/-! ## JSON values and a model of Python `json.loads`

`_extract_json_obj` (agents.py lines 8-49) delegates parsing to Python's
`json.loads`.  The JSON fragment modelled here covers objects, arrays,
strings (with the single-character escapes and `\uXXXX`), integers, booleans
and `null`; the strict-mode rejection of control characters inside strings
and of trailing data after the document is modelled faithfully.  Float
literals (fractions/exponents), accepted by Python, are outside the model:
the parser fails on them, and no claim in this development exercises them. -/

/-- Structured JSON values (Python objects produced by `json.loads`;
objects are association lists in document order). -/
inductive JValue where
  | null : JValue
  | bool (b : Bool) : JValue
  | num (n : Int) : JValue
  | str (s : Str) : JValue
  | arr (xs : List JValue) : JValue
  | obj (fs : List (Str × JValue)) : JValue

/-- JSON whitespace skipped by Python's decoder (`[ \t\n\r]`). -/
def jsonWs (c : Char) : Bool := c = ' ' || c = '\t' || c = '\n' || c = '\r'

/-- Skip decoder whitespace. -/
def skipWs (s : Str) : Str := s.dropWhile jsonWs

/-- Value of a hex digit. -/
def hexVal (c : Char) : Option Nat :=
  if '0' ≤ c && c ≤ '9' then some (c.toNat - 48)
  else if 'a' ≤ c && c ≤ 'f' then some (c.toNat - 87)
  else if 'A' ≤ c && c ≤ 'F' then some (c.toNat - 55)
  else none

/-- Decode a JSON string body (after the opening quote), strict mode:
raw control characters (code < 32) are rejected; escapes
`\" \\ \/ \b \f \n \r \t \uXXXX` are decoded.  Fuel: length plus one. -/
def parseStringBody : Nat → Str → Option (Str × Str)
  | 0, _ => none
  | f + 1, s =>
    match s with
    | [] => none
    | c :: r =>
      if c = '"' then some ([], r)
      else if c = '\\' then
        match r with
        | [] => none
        | e :: r1 =>
          if e = '"' then (parseStringBody f r1).map (fun p => ('"' :: p.1, p.2))
          else if e = '\\' then (parseStringBody f r1).map (fun p => ('\\' :: p.1, p.2))
          else if e = '/' then (parseStringBody f r1).map (fun p => ('/' :: p.1, p.2))
          else if e = 'b' then (parseStringBody f r1).map (fun p => ('\x08' :: p.1, p.2))
          else if e = 'f' then (parseStringBody f r1).map (fun p => ('\x0c' :: p.1, p.2))
          else if e = 'n' then (parseStringBody f r1).map (fun p => ('\n' :: p.1, p.2))
          else if e = 'r' then (parseStringBody f r1).map (fun p => ('\r' :: p.1, p.2))
          else if e = 't' then (parseStringBody f r1).map (fun p => ('\t' :: p.1, p.2))
          else if e = 'u' then
            match r1 with
            | a :: b :: c2 :: d :: r2 =>
              match hexVal a, hexVal b, hexVal c2, hexVal d with
              | some ha, some hb, some hc, some hd =>
                (parseStringBody f r2).map
                  (fun p => (Char.ofNat (((ha * 16 + hb) * 16 + hc) * 16 + hd) :: p.1, p.2))
              | _, _, _, _ => none
            | _ => none
          else none
      else if c.toNat < 32 then none
      else (parseStringBody f r).map (fun p => (c :: p.1, p.2))

/-- Numeric value of a digit run (most significant first). -/
def digitsToNat (ds : Str) : Nat := ds.foldl (fun a c => 10 * a + (c.toNat - 48)) 0

/-- True when the next character would extend the number into a float
literal (fraction or exponent), which the model does not cover. -/
def floatStart : Str → Bool
  | c :: _ => c = '.' || c = 'e' || c = 'E'
  | [] => false

/-- Parse an unsigned JSON integer (`0|[1-9][0-9]*`, per Python's
`NUMBER_RE`; a leading `0` is never followed by further digits of the same
number). -/
def parseUNum (s : Str) : Option (Nat × Str) :=
  match s with
  | [] => none
  | c :: r =>
    if c = '0' then (if floatStart r then none else some (0, r))
    else if isDigit c then
      let ds := (c :: r).takeWhile isDigit
      let rest := (c :: r).dropWhile isDigit
      if floatStart rest then none else some (digitsToNat ds, rest)
    else none

/-- Parse a JSON number (integer model). -/
def parseNumber (s : Str) : Option (JValue × Str) :=
  match s with
  | [] => none
  | c :: r =>
    if c = '-' then (parseUNum r).map (fun p => (JValue.num (-(p.1 : Int)), p.2))
    else (parseUNum (c :: r)).map (fun p => (JValue.num (p.1 : Int), p.2))

mutual

/-- Parse one JSON value; whitespace before the value has been skipped.
The fuel bounds the nesting recursion; `json_loads` passes the input length
plus one, which suffices because every nested call consumes input. -/
def parseValue : Nat → Str → Option (JValue × Str)
  | 0, _ => none
  | f + 1, s =>
    match s with
    | [] => none
    | c :: r =>
      if c = '"' then
        (parseStringBody (r.length + 1) r).map (fun p => (JValue.str p.1, p.2))
      else if c = '[' then
        match skipWs r with
        | [] => (parseElems f []).map (fun p => (JValue.arr p.1, p.2))
        | d :: r2 =>
          if d = ']' then some (JValue.arr [], r2)
          else (parseElems f (d :: r2)).map (fun p => (JValue.arr p.1, p.2))
      else if c = '{' then
        match skipWs r with
        | [] => (parseMembers f []).map (fun p => (JValue.obj p.1, p.2))
        | d :: r2 =>
          if d = '}' then some (JValue.obj [], r2)
          else (parseMembers f (d :: r2)).map (fun p => (JValue.obj p.1, p.2))
      else if ("null".toList).isPrefixOf s then some (JValue.null, s.drop 4)
      else if ("true".toList).isPrefixOf s then some (JValue.bool true, s.drop 4)
      else if ("false".toList).isPrefixOf s then some (JValue.bool false, s.drop 5)
      else parseNumber s

/-- Parse the elements of a non-empty array, up to and including the
closing `]`. -/
def parseElems : Nat → Str → Option (List JValue × Str)
  | 0, _ => none
  | f + 1, s =>
    match parseValue f s with
    | none => none
    | some (v, r) =>
      match skipWs r with
      | [] => none
      | d :: r2 =>
        if d = ',' then (parseElems f (skipWs r2)).map (fun p => (v :: p.1, p.2))
        else if d = ']' then some ([v], r2)
        else none

/-- Parse the members of a non-empty object, up to and including the
closing `}`. -/
def parseMembers : Nat → Str → Option (List (Str × JValue) × Str)
  | 0, _ => none
  | f + 1, s =>
    match s with
    | [] => none
    | c :: r =>
      if c = '"' then
        match parseStringBody (r.length + 1) r with
        | none => none
        | some (k, r2) =>
          match skipWs r2 with
          | [] => none
          | d :: r3 =>
            if d = ':' then
              match parseValue f (skipWs r3) with
              | none => none
              | some (v, r4) =>
                match skipWs r4 with
                | [] => none
                | e :: r5 =>
                  if e = ',' then (parseMembers f (skipWs r5)).map (fun p => ((k, v) :: p.1, p.2))
                  else if e = '}' then some ([(k, v)], r5)
                  else none
            else none
      else none

end

/-- Python `json.loads`: one document, then only whitespace may remain
("Extra data" otherwise). -/
def json_loads (s : Str) : Option JValue :=
  match parseValue (s.length + 1) (skipWs s) with
  | some (v, rest) => if skipWs rest = [] then some v else none
  | none => none

/-! ## The Extractor `_extract_json_obj` (agents.py lines 8-49) -/

/-- The lazy close of strategy 1's regex `\x60\x60\x60json\s*(\{.*?\})\s*\x60\x60\x60`:
after the group's opening brace, find the earliest `\x7d` that is followed by
(maximal) `\s*` and the literal closing fence; `acc` accumulates the group
interior scanned so far. -/
def fenceClose : Str → Str → Option Str
  | [], _ => none
  | c :: r, acc =>
    if c = '}' then
      if ("```".toList).isPrefixOf (r.dropWhile isSpace) then some ('{' :: acc.reverse ++ ['}'])
      else fenceClose r ('}' :: acc)
    else fenceClose r (c :: acc)

/-- Strategy 1's regex anchored at `s`: literal fence label, greedy `\s*`
(forced maximal since `\{` is not whitespace), then the lazy group. -/
def fenceAt (s : Str) : Option Str :=
  if ("```json".toList).isPrefixOf s then
    match (s.drop 7).dropWhile isSpace with
    | '{' :: r2 => fenceClose r2 []
    | _ => none
  else none

/-- `re.search` for strategy 1: leftmost position where the fence pattern
matches, returning the captured group. -/
def fenceSearch : Str → Option Str
  | [] => none
  | c :: r =>
    match fenceAt (c :: r) with
    | some g => some g
    | none => fenceSearch r

/-- Index of the last occurrence of `c` in `s`, if any. -/
def lastIdxOf (c : Char) (s : Str) : Option Nat :=
  ((List.range s.length).filter (fun i => s.getD i ' ' = c)).getLast?

/-- Strategy 2's `re.search(r"\{.*\}", text, DOTALL)`: the leftmost match
starts at the first `\x7b` and the greedy `.*` extends to the last `\x7d`;
there is a match exactly when some `\x7d` follows the first `\x7b`. -/
def braceSpan (s : Str) : Option Str :=
  match s.findIdx? (fun c => c = '{'), lastIdxOf '}' s with
  | some i, some j => if i < j then some ((s.drop i).take (j + 1 - i)) else none
  | _, _ => none

/-- One `re.sub(",\s*" + close, close, s)` pass (strategy 4's trailing-comma
cleanup): a match is a comma whose maximal following whitespace run is
followed by `close`; the whole match is replaced by `close` and scanning
resumes after it.  Fuel: length plus one. -/
def subCommaClose (close : Char) : Nat → Str → Str
  | 0, s => s
  | _ + 1, [] => []
  | f + 1, c :: r =>
    if c = ',' then
      match r.drop (r.takeWhile isSpace).length with
      | d :: r2 =>
        if d = close then close :: subCommaClose close f r2
        else c :: subCommaClose close f r
      | [] => c :: subCommaClose close f r
    else c :: subCommaClose close f r

/-- `_extract_json_obj` — agents.py lines 8-49.  `none` models the raised
`ValueError` (`ParseError`).  The four recovery strategies are attempted in
order; a strategy whose regex fails to match, or whose `json.loads` raises,
falls through to the next. -/
def _extract_json_obj (text : Str) : Option JValue :=
  if strip text = [] then none
  else
    let t := strip text
    match (match fenceSearch t with | some g => json_loads g | none => none) with
    | some v => some v
    | none =>
      match (match braceSpan t with | some sp => json_loads sp | none => none) with
      | some v => some v
      | none =>
        match (if (lstrip t).head? = some '"' then json_loads ('{' :: lstrip t) else none) with
        | some v => some v
        | none =>
          let c1 := subCommaClose '}' (t.length + 1) t
          json_loads (subCommaClose ']' (c1.length + 1) c1)

/-! ## The serializer used to state the extraction round-trip (claim C6):
standard compact JSON text for a `JValue`. -/

/-- Decimal digit character. -/
def digitChar (d : Nat) : Char := Char.ofNat (48 + d)

/-- Digits of `n`, most significant first (empty for 0); fuel ≥ n. -/
def natDigitsAux : Nat → Nat → Str
  | 0, _ => []
  | f + 1, n => if n = 0 then [] else natDigitsAux f (n / 10) ++ [digitChar (n % 10)]

/-- Decimal digits of `n`. -/
def natDigits (n : Nat) : Str := if n = 0 then ['0'] else natDigitsAux n n

/-- Serialize an integer. -/
def serInt (n : Int) : Str :=
  if n < 0 then '-' :: natDigits n.natAbs else natDigits n.toNat

/-- JSON string escaping for the quote and backslash (strings containing
control characters are excluded by `goodVal`). -/
def escChar (c : Char) : Str :=
  if c = '"' then ['\\', '"']
  else if c = '\\' then ['\\', '\\']
  else [c]

/-- Escape a string body. -/
def escapeStr (s : Str) : Str := s.flatMap escChar

mutual

/-- Compact JSON serialization of a value. -/
def serVal : JValue → Str
  | .null => "null".toList
  | .bool true => "true".toList
  | .bool false => "false".toList
  | .num n => serInt n
  | .str s => '"' :: escapeStr s ++ ['"']
  | .arr xs => '[' :: serElems xs ++ [']']
  | .obj fs => '{' :: serMembers fs ++ ['}']

/-- Comma-separated serialization of array elements. -/
def serElems : List JValue → Str
  | [] => []
  | [x] => serVal x
  | x :: y :: r => serVal x ++ ',' :: serElems (y :: r)

/-- Comma-separated serialization of object members. -/
def serMembers : List (Str × JValue) → Str
  | [] => []
  | [kv] => ('"' :: escapeStr kv.1 ++ ['"']) ++ ':' :: serVal kv.2
  | kv :: m :: r => (('"' :: escapeStr kv.1 ++ ['"']) ++ ':' :: serVal kv.2) ++ ',' :: serMembers (m :: r)

end

mutual

/-- Every string (value or key) in the value is free of control
characters, so the serializer needs no control escapes. -/
def goodVal : JValue → Prop
  | .str s => ∀ c ∈ s, 32 ≤ c.toNat
  | .arr xs => goodElems xs
  | .obj fs => goodMembers fs
  | _ => True

/-- `goodVal` over array elements. -/
def goodElems : List JValue → Prop
  | [] => True
  | x :: r => goodVal x ∧ goodElems r

/-- `goodVal` over object members. -/
def goodMembers : List (Str × JValue) → Prop
  | [] => True
  | kv :: r => (∀ c ∈ kv.1, 32 ≤ c.toNat) ∧ goodVal kv.2 ∧ goodMembers r

end

mutual

/-- Fuel lower bound sufficient for `parseValue` on a serialized value. -/
def szVal : JValue → Nat
  | .arr xs => szElems xs + 1
  | .obj fs => szMembers fs + 1
  | _ => 1

/-- Fuel lower bound for `parseElems` on serialized elements. -/
def szElems : List JValue → Nat
  | [] => 0
  | x :: r => szVal x + szElems r + 1

/-- Fuel lower bound for `parseMembers` on serialized members. -/
def szMembers : List (Str × JValue) → Nat
  | [] => 0
  | kv :: r => szVal kv.2 + szMembers r + 1

end

/-- The remainder after a serialized number must not begin with a character
that would extend the numeral (digit, fraction or exponent); every context in
which the parser re-enters after a value (`,`/`]`/`\x7d`/whitespace/end) is
safe. -/
def numSafe : Str → Prop
  | [] => True
  | c :: _ => isDigit c = false ∧ c ≠ '.' ∧ c ≠ 'e' ∧ c ≠ 'E'

/-! ## The Evidence Selector (retrieval.py) -/

/-- `RISK_QUERIES` — retrieval.py lines 8-17. -/
def RISK_QUERIES : List Str :=
  [("limitation of liability and liability cap").toList,
   ("indemnity and indemnification").toList,
   ("termination for convenience and auto-renewal").toList,
   ("data privacy security and GDPR").toList,
   ("payment terms fees and pricing").toList,
   ("warranties service level agreement SLA").toList,
   ("confidentiality and non-disclosure").toList,
   ("insurance and compliance").toList]

/-- `_dot` — retrieval.py lines 20-22 (Python `zip` stops at the shorter
vector).  Scores are modelled over `Rat`; the embedding function is an
explicit parameter (external collaborator). -/
def dotProd (a b : List Rat) : Rat := ((a.zip b).map (fun p => p.1 * p.2)).sum

/-- `EVIDENCE_MAX_CHARS` — retrieval.py line 26. -/
def EVIDENCE_MAX_CHARS : Nat := 14000

/-- The truncation notice appended at retrieval.py line 51. -/
def truncNotice : Str := ("\n\n[... text truncated to fit model context ...]").toList

/-- `sep.join(...)`. -/
def joinSep (sep : Str) : List Str → Str
  | [] => []
  | [x] => x
  | x :: y :: r => x ++ sep ++ joinSep sep (y :: r)

/-- `sorted(range(len(scores)), key=lambda i: -scores[i])[:top_k]`
— retrieval.py line 45: a stable ascending sort by negated score, i.e. a
stable descending sort by score, then the first `k` indices. -/
def topIndices (scores : List Rat) (k : Nat) : List Nat :=
  (List.insertionSort (fun i j => scores.getD j 0 ≤ scores.getD i 0) (List.range scores.length)).take k

/-- The accumulated index set and its final ascending enumeration
(`sorted(evidence_indices)` of the Python `set`) — retrieval.py lines 41-48. -/
def selectedIndices (embed : List Str → List (List Rat)) (chunks : List Chunk) (topK : Nat) :
    List Nat :=
  let chunkEmbs := embed (chunks.map Chunk.text)
  let acc := RISK_QUERIES.foldl
    (fun acc q =>
      let qEmb := (embed [q]).getD 0 []
      let scores := chunkEmbs.map (fun ce => dotProd qEmb ce)
      acc ++ topIndices scores topK)
    []
  List.insertionSort (fun a b => a ≤ b) acc.dedup

/-- `retrieve_evidence_for_risk` — retrieval.py lines 29-52. -/
def retrieve_evidence_for_risk (embed : List Str → List (List Rat)) (chunks : List Chunk)
    (topK : Nat) (maxChars : Nat) : Str :=
  if chunks = [] then []
  else
    let texts := chunks.map Chunk.text
    let out := joinSep ('\n' :: '\n' :: []) ((selectedIndices embed chunks topK).map
      (fun i => texts.getD i []))
    if maxChars < out.length then out.take maxChars ++ truncNotice else out

/-! ## The Resilient Generation Invoker (`run_risk_review`, agents.py
lines 177-196)

`run_risk_review` is decorated with
`@retry(stop=stop_after_attempt(3), wait=..., retry=retry_if_exception_type(ValueError))`.
Each attempt issues a json-mode `_ollama_generate` call; when extraction of
its output fails (`ValueError`), a non-json-mode call is issued within the
same attempt; when extraction fails again the `ValueError` escapes and
tenacity starts the next attempt, up to 3 attempts in total.
`_ollama_generate` converts transport failures (connection error, model not
found, non-success status — agents.py lines 100-114) into `RuntimeError`,
which is not in `retry_if_exception_type(ValueError)` and therefore
propagates immediately.  The generation collaborator is modelled as an
oracle mapping the index of an outbound call to its outcome. -/

/-- Outcome of one outbound `_ollama_generate` call. -/
inductive GenReply where
  | transportError : GenReply
  | reply (t : Str) : GenReply

/-- Result of `run_risk_review`. -/
inductive RiskOutcome where
  | ok (raw : Str) : RiskOutcome
  | transportFatal : RiskOutcome
  | retriesExhausted : RiskOutcome
deriving DecidableEq

/-- Whether `_extract_json_obj` succeeds on a raw output. -/
def extractOk (t : Str) : Bool := (_extract_json_obj t).isSome

/-- The retry state machine of `run_risk_review`: `c` attempts remain,
`n` outbound calls were already issued.  Returns the outcome and the total
number of outbound calls. -/
def runFrom (oracle : Nat → GenReply) : Nat → Nat → RiskOutcome × Nat
  | 0, n => (.retriesExhausted, n)
  | c + 1, n =>
    match oracle n with
    | .transportError => (.transportFatal, n + 1)
    | .reply t =>
      if extractOk t then (.ok t, n + 1)
      else
        match oracle (n + 1) with
        | .transportError => (.transportFatal, n + 2)
        | .reply t2 =>
          if extractOk t2 then (.ok t2, n + 2)
          else runFrom oracle c (n + 2)

/-- `run_risk_review` under `stop_after_attempt(3)`. -/
def run_risk_review (oracle : Nat → GenReply) : RiskOutcome × Nat := runFrom oracle 3 0

/-! ## Predicates and concrete inputs used by the claim theorems -/

/-- The non-whitespace characters of a string, in order. -/
def filterNW (s : Str) : Str := s.filter (fun c => !isSpace c)

/-- Adjacent-character discipline of segment texts: no whitespace character
immediately before a newline and none immediately after one (this is
exactly "no blank line, no line with leading or trailing whitespace",
expressed on adjacent characters). -/
def cleanAdj (a b : Char) : Prop :=
  ¬ (isSpace a = true ∧ b = '\n') ∧ ¬ (a = '\n' ∧ isSpace b = true)

/-- A non-empty text whose every line is non-blank with no leading or
trailing whitespace. -/
def CleanText (t : Str) : Prop :=
  t ≠ [] ∧ (∀ c, t.head? = some c → isSpace c = false) ∧
    (∀ c, t.getLast? = some c → isSpace c = false) ∧ List.Chain' cleanAdj t

/-- The stripped non-blank lines of a document, in order. -/
def nonBlankLines (d : Str) : List Str := ((splitNl d).map strip).filter (fun l => !l.isEmpty)

/-- No line of the document is a heading candidate. -/
def noHeadingDoc (d : Str) : Bool := ((splitNl d).map strip).all (fun l => !headingCandidate l)

/-- The specification's segmentation scenario document (spec §8). -/
def scenarioDoc : Str :=
  ("1. Term\nThis agreement begins Jan 1.\n\nLIABILITY\nLiability capped at fees paid.").toList

/-- An input whose single line is split at a sentence boundary. -/
def c3doc : Str := ("Hello. World").toList

/-- An input with an interior blank line and no headings. -/
def c4doc : Str := ("a\n\nb").toList

/-- A small JSON object for the extraction round-trip claim. -/
def c6obj : JValue := JValue.obj [(("a").toList, JValue.num 1)]

/-- The object's serialization followed by prose containing a closing
brace. -/
def c6cexText : Str := serVal c6obj ++ (" \x7d").toList

/-- Prose pieces for the round-trip witness. -/
def c6p1 : Str := ("out: ").toList

/-- Trailing prose for the round-trip witness. -/
def c6p2 : Str := (" done").toList

/-- Witness fields for the round-trip witness. -/
def c6wfs : List (Str × JValue) := [(("a").toList, JValue.num 1)]

/-- An oracle whose first call fails at the transport level. -/
def w7oracle : Nat → GenReply := fun _ => GenReply.transportError

/-- A raw output on which extraction fails. -/
def failText : Str := ("x").toList

/-- A raw output on which extraction succeeds. -/
def okText : Str := ("\x7b\x7d").toList

/-- An oracle failing extraction on the first four calls and succeeding on
the fifth. -/
def w8oracle : Nat → GenReply :=
  fun n => if n < 4 then GenReply.reply failText else GenReply.reply okText

/-- A concrete embedding collaborator for the evidence-selector witness. -/
def w5embed : List Str → List (List Rat) := fun ts => ts.map (fun _ => [1])

/-- A concrete chunk list for the evidence-selector witness. -/
def w5chunks : List Chunk := [⟨("A").toList, ("alpha").toList⟩]

/-! # Theorems -/

/-! ## Claim C1 -/

/-- Claim C1 (code bug): on the specification's scenario document the code
returns the two expected segment texts in order, but labels the first
segment "UNKNOWN" instead of "1. Term": `SECTION_RE`'s numeric alternative
`(\d+(\.\d+)*)\s+` demands whitespace immediately after the digit run, so
it rejects "1. Term" — a heading shape the code's own comment (chunking.py
lines 4-5) promises to detect. -/
theorem C1_scenario_first_section_unknown :
    chunk_text scenarioDoc 1800 =
      [⟨unknownLabel, ("1. Term\nThis agreement begins Jan 1.").toList⟩,
       ⟨("LIABILITY").toList, ("LIABILITY\nLiability capped at fees paid.").toList⟩] ∧
    (chunk_text scenarioDoc 1800).map Chunk.sec ≠ [("1. Term").toList, ("LIABILITY").toList] := by
  exact ⟨by decide, by decide⟩

/-! ## Claim C10 -/

/-- Claim C10: inputs containing no opening brace at all, such as "[1, 2]"
and "5", make strategies 1-3 inapplicable, yet the final trailing-comma
cleanup strategy parses the whole text and returns a non-object value
(an array, a bare number) instead of raising `ParseError`. -/
theorem C10_extract_accepts_non_objects :
    _extract_json_obj (("[1, 2]").toList) = some (JValue.arr [JValue.num 1, JValue.num 2]) ∧
    _extract_json_obj (("5").toList) = some (JValue.num 5) ∧
    '{' ∉ ("[1, 2]").toList ∧ '{' ∉ ("5").toList :=
  ⟨rfl, rfl, by decide, by decide⟩

/-! ## Claim C6, counterexample part -/

/-- Claim C6 (counterexample): embedding the serialization of the object
`(a ↦ 1)` in surrounding prose that contains one more closing brace defeats
every strategy of `_extract_json_obj`: the greedy brace span runs from the
object's opening brace to the prose's brace and no longer parses, and the
remaining strategies do not apply, so extraction fails — the claimed
round-trip for arbitrary surrounding prose is false. -/
theorem C6_roundtrip_counterexample : _extract_json_obj c6cexText = none := rfl

/-! ## Invoker lemmas, claims C7 and C8 -/

/-- Call-count upper bound: each attempt cycle issues at most two calls. -/
theorem runFrom_calls_le (oracle : Nat → GenReply) :
    ∀ c n, (runFrom oracle c n).2 ≤ n + 2 * c := by
  intro c
  induction c with
  | zero => intro n; simp [runFrom]
  | succ c ih =>
    intro n
    rw [runFrom]
    cases h : oracle n with
    | transportError => simp; omega
    | reply t =>
      by_cases he : extractOk t
      · simp [he]; omega
      · simp [he]
        cases h2 : oracle (n + 1) with
        | transportError => simp
        | reply t2 =>
          by_cases he2 : extractOk t2
          · simp [he2]
          · simp [he2]; have := ih (n + 2); omega

/-- A transport error among the issued calls ends the run at once:
the failing call is the last one and the outcome is fatal. -/
theorem runFrom_transport (oracle : Nat → GenReply) :
    ∀ c n i, n ≤ i → i < (runFrom oracle c n).2 → oracle i = GenReply.transportError →
      (runFrom oracle c n).1 = RiskOutcome.transportFatal ∧ (runFrom oracle c n).2 = i + 1 := by
  intro c
  induction c with
  | zero =>
    intro n i hni hi _
    simp only [runFrom] at hi ⊢
    omega
  | succ c ih =>
    intro n i hni hi ht
    rw [runFrom] at hi ⊢
    cases h : oracle n with
    | transportError =>
      simp only [h] at hi ⊢
      have : i = n := by omega
      subst this
      simp
    | reply t =>
      by_cases he : extractOk t
      · simp only [h, he, if_true] at hi ⊢
        have : i = n := by omega
        subst this
        rw [h] at ht
        exact absurd ht (by simp)
      · simp only [h, he, if_false, Bool.false_eq_true] at hi ⊢
        cases h2 : oracle (n + 1) with
        | transportError =>
          simp only [h2] at hi ⊢
          have hin : i = n ∨ i = n + 1 := by omega
          rcases hin with rfl | rfl
          · rw [h] at ht; exact absurd ht (by simp)
          · simp
        | reply t2 =>
          by_cases he2 : extractOk t2
          · simp only [h2, he2, if_true] at hi ⊢
            have hin : i = n ∨ i = n + 1 := by omega
            rcases hin with rfl | rfl
            · rw [h] at ht; exact absurd ht (by simp)
            · rw [h2] at ht; exact absurd ht (by simp)
          · simp only [h2, he2, if_false, Bool.false_eq_true] at hi ⊢
            rcases Nat.lt_or_ge i (n + 2) with hlt | hge
            · have hin : i = n ∨ i = n + 1 := by omega
              rcases hin with rfl | rfl
              · rw [h] at ht; exact absurd ht (by simp)
              · rw [h2] at ht; exact absurd ht (by simp)
            · exact ih (n + 2) i hge hi ht

/-- Claim C7: whenever an outbound generation call fails at the transport
level (collaborator unreachable, model missing, non-success status —
`_ollama_generate` turns all of these into a `RuntimeError`, which
`retry_if_exception_type(ValueError)` does not retry), `run_risk_review`
surfaces the failure immediately as a fatal outcome: the failing call is
the final call issued and no retry cycle follows. -/
theorem C7_transport_fatal_no_retry (oracle : Nat → GenReply) (i : Nat)
    (hi : i < (run_risk_review oracle).2) (ht : oracle i = GenReply.transportError) :
    (run_risk_review oracle).1 = RiskOutcome.transportFatal ∧
      (run_risk_review oracle).2 = i + 1 :=
  runFrom_transport oracle 3 0 i (Nat.zero_le i) hi ht

/-- Witness for C7: an oracle failing at the transport level on its first
call yields the fatal outcome after exactly one call. -/
theorem C7_transport_fatal_no_retry_witness :
    0 < (run_risk_review w7oracle).2 ∧ w7oracle 0 = GenReply.transportError ∧
      (run_risk_review w7oracle).1 = RiskOutcome.transportFatal ∧
      (run_risk_review w7oracle).2 = 0 + 1 :=
  ⟨by decide, rfl,
    C7_transport_fatal_no_retry w7oracle 0 (by decide) rfl⟩

/-- Claim C8: when JSON extraction fails on both calls of the first two
retry cycles and succeeds on the third cycle's json-mode call,
`run_risk_review` returns the third cycle's raw text after exactly five
outbound calls; and no run ever issues more than six outbound calls
(three outer cycles of at most two calls each). -/
theorem C8_retry_bound (oracle : Nat → GenReply) (t0 t1 t2 t3 t4 : Str)
    (h0 : oracle 0 = GenReply.reply t0) (e0 : extractOk t0 = false)
    (h1 : oracle 1 = GenReply.reply t1) (e1 : extractOk t1 = false)
    (h2 : oracle 2 = GenReply.reply t2) (e2 : extractOk t2 = false)
    (h3 : oracle 3 = GenReply.reply t3) (e3 : extractOk t3 = false)
    (h4 : oracle 4 = GenReply.reply t4) (e4 : extractOk t4 = true) :
    run_risk_review oracle = (RiskOutcome.ok t4, 5) ∧
      ∀ g : Nat → GenReply, (run_risk_review g).2 ≤ 6 := by
  constructor
  · show runFrom oracle 3 0 = _
    rw [runFrom]
    norm_num [h0, e0, h1, e1]
    rw [runFrom]
    norm_num [h2, e2, h3, e3]
    rw [runFrom]
    norm_num [h4, e4]
  · intro g
    have := runFrom_calls_le g 3 0
    simpa [run_risk_review] using this

/-- Witness for C8 at a concrete oracle: four extraction failures, then a
parseable reply on the fifth call. -/
theorem C8_retry_bound_witness :
    w8oracle 0 = GenReply.reply failText ∧ extractOk failText = false ∧
      w8oracle 4 = GenReply.reply okText ∧ extractOk okText = true ∧
      run_risk_review w8oracle = (RiskOutcome.ok okText, 5) :=
  ⟨rfl, rfl, rfl, rfl,
    (C8_retry_bound w8oracle failText failText failText failText okText
      rfl rfl rfl rfl rfl rfl rfl rfl rfl rfl).1⟩

/-! ## Claim C5 -/

/-- Indices selected for one query are indices of the score list. -/
theorem mem_topIndices_lt (scores : List Rat) (k : Nat) :
    ∀ i ∈ topIndices scores k, i < scores.length := by
  intro i hi
  unfold topIndices at hi
  have h1 := List.take_subset k _ hi
  have h2 := (List.perm_insertionSort
    (fun i j => scores.getD j 0 ≤ scores.getD i 0) (List.range scores.length)).mem_iff.mp h1
  exact List.mem_range.mp h2

/-- Every index accumulated over the topic queries is an index of the
embedded chunk list. -/
theorem selectedIndices_lt (embed : List Str → List (List Rat)) (chunks : List Chunk)
    (topK : Nat) :
    ∀ i ∈ selectedIndices embed chunks topK, i < (embed (chunks.map Chunk.text)).length := by
  intro i hi
  unfold selectedIndices at hi
  have hi2 := (List.perm_insertionSort (fun a b => a ≤ b) _).mem_iff.mp hi
  have hi3 := List.mem_dedup.mp hi2
  set chunkEmbs := embed (chunks.map Chunk.text) with hce
  clear hi hi2
  revert hi3
  generalize hacc : ([] : List Nat) = acc
  have hbase : ∀ j ∈ acc, j < chunkEmbs.length := by
    intro j hj; rw [← hacc] at hj; exact absurd hj (List.not_mem_nil j)
  clear hacc
  induction RISK_QUERIES generalizing acc with
  | nil => intro h; exact hbase i h
  | cons q qs ih =>
    intro h
    refine ih _ ?_ h
    intro j hj
    rcases List.mem_append.mp hj with hj1 | hj2
    · exact hbase j hj1
    · have := mem_topIndices_lt _ topK j hj2
      simpa using this

/-- The final index enumeration is strictly ascending (hence duplicate
free): it is the ascending sort of the deduplicated accumulated set. -/
theorem selectedIndices_sorted (embed : List Str → List (List Rat)) (chunks : List Chunk)
    (topK : Nat) : (selectedIndices embed chunks topK).Sorted (· < ·) := by
  have h1 : (selectedIndices embed chunks topK).Sorted (· ≤ ·) :=
    List.sorted_insertionSort (fun a b => a ≤ b) _
  have h2 : (selectedIndices embed chunks topK).Nodup := by
    unfold selectedIndices
    exact ((List.perm_insertionSort _ _).nodup_iff).mpr (List.nodup_dedup _)
  exact h1.lt_of_le h2

/-- Claim C5: for every non-empty chunk list (and any embedding
collaborator satisfying the length contract), the evidence bundle is the
blank-line concatenation of the chunk texts at a strictly ascending — and
therefore duplicate-free — list of in-range indices, in original document
order, with the final character-budget truncation applied to the result. -/
theorem C5_evidence_dedup_order (embed : List Str → List (List Rat)) (chunks : List Chunk)
    (topK maxChars : Nat) (hne : chunks ≠ [])
    (hlen : (embed (chunks.map Chunk.text)).length = chunks.length) :
    (selectedIndices embed chunks topK).Sorted (· < ·) ∧
    (∀ i ∈ selectedIndices embed chunks topK, i < chunks.length) ∧
    retrieve_evidence_for_risk embed chunks topK maxChars =
      (let out := joinSep ('\n' :: '\n' :: [])
        ((selectedIndices embed chunks topK).map (fun i => (chunks.map Chunk.text).getD i []));
      if maxChars < out.length then out.take maxChars ++ truncNotice else out) := by
  refine ⟨selectedIndices_sorted embed chunks topK,
    fun i hi => hlen ▸ selectedIndices_lt embed chunks topK i hi, ?_⟩
  unfold retrieve_evidence_for_risk
  rw [if_neg hne]

/-- Witness for C5 at a concrete embedding collaborator and a one-chunk
list. -/
theorem C5_evidence_dedup_order_witness :
    w5chunks ≠ [] ∧ (w5embed (w5chunks.map Chunk.text)).length = w5chunks.length ∧
    ((selectedIndices w5embed w5chunks 5).Sorted (· < ·) ∧
     (∀ i ∈ selectedIndices w5embed w5chunks 5, i < w5chunks.length) ∧
     retrieve_evidence_for_risk w5embed w5chunks 5 14000 =
       (let out := joinSep ('\n' :: '\n' :: [])
         ((selectedIndices w5embed w5chunks 5).map (fun i => (w5chunks.map Chunk.text).getD i []));
       if 14000 < out.length then out.take 14000 ++ truncNotice else out)) :=
  ⟨by decide, rfl, C5_evidence_dedup_order w5embed w5chunks 5 14000 (by decide) rfl⟩

/-! ## Basic string lemmas -/

/-- Membership from `getLast?`. -/
theorem mem_of_getLast?_eq {α : Type} : ∀ (l : List α) (a : α), l.getLast? = some a → a ∈ l
  | [], a, h => by simp at h
  | [x], a, h => by simp at h; simp [h]
  | x :: y :: r, a, h => by
    rw [List.getLast?_cons_cons] at h
    exact List.mem_cons_of_mem x (mem_of_getLast?_eq (y :: r) a h)

/-- `filterNW` distributes over append. -/
theorem filterNW_append (a b : Str) : filterNW (a ++ b) = filterNW a ++ filterNW b := by
  simp [filterNW, List.filter_append]

/-- Dropping leading whitespace does not change the non-whitespace
characters. -/
theorem filterNW_dropWhile_space (s : Str) : filterNW (s.dropWhile isSpace) = filterNW s := by
  induction s with
  | nil => rfl
  | cons c r ih =>
    cases h : isSpace c with
    | true => simpa [List.dropWhile_cons, h, filterNW] using ih
    | false => simp [List.dropWhile_cons, h]

/-- `filterNW` commutes with reversal. -/
theorem filterNW_reverse (s : Str) : filterNW s.reverse = (filterNW s).reverse := by
  simp [filterNW, List.filter_reverse]

/-- Left strip preserves the non-whitespace characters. -/
theorem filterNW_lstrip (s : Str) : filterNW (lstrip s) = filterNW s :=
  filterNW_dropWhile_space s

/-- Right strip preserves the non-whitespace characters. -/
theorem filterNW_rstrip (s : Str) : filterNW (rstrip s) = filterNW s := by
  unfold rstrip
  rw [filterNW_reverse, filterNW_dropWhile_space, filterNW_reverse]
  simp

/-- Strip preserves the non-whitespace characters. -/
theorem filterNW_strip (s : Str) : filterNW (strip s) = filterNW s := by
  unfold strip
  rw [filterNW_rstrip, filterNW_lstrip]

/-- The head surviving `dropWhile isSpace` is not whitespace. -/
theorem head?_dropWhile_space (s : Str) (c : Char)
    (h : (s.dropWhile isSpace).head? = some c) : isSpace c = false := by
  induction s with
  | nil => simp at h
  | cons d r ih =>
    rw [List.dropWhile_cons] at h
    by_cases hd : isSpace d = true
    · rw [if_pos hd] at h; exact ih h
    · rw [if_neg hd] at h
      simp only [List.head?_cons, Option.some.injEq] at h
      subst h
      simpa using hd

/-- `rstrip` is a prefix. -/
theorem rstrip_pre (s : Str) : rstrip s <+: s := by
  unfold rstrip
  have h := @List.dropWhile_suffix _ s.reverse isSpace
  have h2 := List.reverse_prefix.mpr h
  simpa using h2

/-- `lstrip` is a suffix. -/
theorem lstrip_suffix (s : Str) : lstrip s <:+ s := List.dropWhile_suffix _

/-- `strip` is an infix. -/
theorem strip_inf (s : Str) : strip s <:+: s :=
  (rstrip_pre (lstrip s)).isInfix.trans (lstrip_suffix s).isInfix

/-- Strip never lengthens a string. -/
theorem strip_length_le (s : Str) : (strip s).length ≤ s.length := by
  calc (strip s).length ≤ (lstrip s).length := (rstrip_pre (lstrip s)).length_le
    _ ≤ s.length := (lstrip_suffix s).length_le

/-- The head of a stripped string is not whitespace. -/
theorem strip_head?_nonspace (s : Str) (c : Char) (h : (strip s).head? = some c) :
    isSpace c = false := by
  obtain ⟨t, ht⟩ := rstrip_pre (lstrip s)
  apply head?_dropWhile_space s c
  show (lstrip s).head? = some c
  unfold strip at h
  rw [← ht, List.head?_append, h]
  rfl

/-- The last character of a stripped string is not whitespace. -/
theorem strip_getLast?_nonspace (s : Str) (c : Char) (h : (strip s).getLast? = some c) :
    isSpace c = false := by
  unfold strip rstrip at h
  rw [List.getLast?_reverse] at h
  exact head?_dropWhile_space _ c h

/-- A string strips to nothing exactly when it has no non-whitespace
character. -/
theorem strip_eq_nil_iff (s : Str) : strip s = [] ↔ filterNW s = [] := by
  constructor
  · intro h
    have h2 := filterNW_strip s
    rw [h] at h2
    exact h2.symm
  · intro h
    have hall : ∀ c ∈ s, isSpace c = true := by
      intro c hc
      by_contra hcon
      have hmem : c ∈ filterNW s := List.mem_filter.mpr ⟨hc, by simpa using hcon⟩
      simp [h] at hmem
    unfold strip lstrip
    rw [List.dropWhile_eq_nil_iff.mpr (by intro x hx; exact hall x hx)]
    rfl

/-- `dropWhile isSpace` is the identity when the head is not whitespace. -/
theorem dropWhile_space_eq_self (s : Str)
    (h : ∀ c, s.head? = some c → isSpace c = false) : s.dropWhile isSpace = s := by
  cases s with
  | nil => rfl
  | cons c r => rw [List.dropWhile_cons, if_neg (by simp [h c rfl])]

/-- A string with non-whitespace head and last is already stripped. -/
theorem strip_eq_self (s : Str)
    (h1 : ∀ c, s.head? = some c → isSpace c = false)
    (h2 : ∀ c, s.getLast? = some c → isSpace c = false) : strip s = s := by
  unfold strip lstrip rstrip
  rw [dropWhile_space_eq_self s h1]
  rw [dropWhile_space_eq_self s.reverse (fun c hc => h2 c (by rwa [← List.getLast?_reverse, List.reverse_reverse] at hc))]
  simp

/-- Strip is idempotent. -/
theorem strip_idem (s : Str) : strip (strip s) = strip s :=
  strip_eq_self _ (strip_head?_nonspace s) (strip_getLast?_nonspace s)

/-- A clean text is its own strip. -/
theorem strip_of_clean {t : Str} (h : CleanText t) : strip t = t :=
  strip_eq_self _ h.2.1 h.2.2.1

/-- Stripping any string with the adjacency discipline yields nothing or a
clean text. -/
theorem cleanText_strip {v : Str} (hch : List.Chain' cleanAdj v) :
    strip v = [] ∨ CleanText (strip v) := by
  by_cases h : strip v = []
  · exact Or.inl h
  · exact Or.inr ⟨h, strip_head?_nonspace v, strip_getLast?_nonspace v,
      hch.infix (strip_inf v)⟩

/-- A newline-free string satisfies the adjacency discipline. -/
theorem chain'_of_no_nl {l : Str} (h : '\n' ∉ l) : List.Chain' cleanAdj l := by
  induction l with
  | nil => simp
  | cons c r ih =>
    have hc : c ≠ '\n' := fun hcc => h (by simp [hcc])
    have hr : '\n' ∉ r := fun hm => h (List.mem_cons_of_mem c hm)
    cases r with
    | nil => simp
    | cons d r2 =>
      refine List.chain'_cons.mpr ⟨?_, ih hr⟩
      have hd : d ≠ '\n' := fun hdd => hr (by simp [hdd])
      exact ⟨fun hcon => hd hcon.2, fun hcon => hc hcon.1⟩

/-- The strip of a newline-free string is clean when non-empty. -/
theorem cleanText_of_stripped_line {l : Str} (hne : strip l ≠ []) (hnl : '\n' ∉ l) :
    CleanText (strip l) :=
  ⟨hne, strip_head?_nonspace l, strip_getLast?_nonspace l,
    chain'_of_no_nl (fun hm => hnl ((strip_inf l).sublist.subset hm))⟩

/-- `getLast?` ignores a leading element when the tail is non-empty. -/
theorem getLast?_cons_ne_nil (x : Char) (l : Str) (h : l ≠ []) :
    (x :: l).getLast? = l.getLast? := by
  cases l with
  | nil => exact absurd rfl h
  | cons y r => exact List.getLast?_cons_cons

/-- `getLast?` of an append with non-empty right part. -/
theorem getLast?_append_right (a b : Str) (hb : b ≠ []) : (a ++ b).getLast? = b.getLast? := by
  induction a with
  | nil => rfl
  | cons x r ih =>
    rw [List.cons_append]
    rw [getLast?_cons_ne_nil x (r ++ b) (by simp [hb])]
    exact ih

/-- Joining two clean texts with a newline is clean. -/
theorem cleanText_append_nl {a b : Str} (ha : CleanText a) (hb : CleanText b) :
    CleanText (a ++ '\n' :: b) := by
  obtain ⟨hane, hah, hal, hac⟩ := ha
  obtain ⟨hbne, hbh, hbl, hbc⟩ := hb
  refine ⟨by simp, ?_, ?_, ?_⟩
  · intro c hc
    cases a with
    | nil => exact absurd rfl hane
    | cons x r =>
      rw [List.cons_append, List.head?_cons, Option.some.injEq] at hc
      exact hah c (by rw [← hc]; rfl)
  · intro c hc
    rw [getLast?_append_right a ('\n' :: b) (by simp)] at hc
    rw [getLast?_cons_ne_nil '\n' b hbne] at hc
    exact hbl c hc
  · rw [List.chain'_append]
    refine ⟨hac, ?_, ?_⟩
    · rw [List.chain'_cons']
      refine ⟨?_, hbc⟩
      intro y hy
      have hyws : isSpace y = false := hbh y (by simpa using hy)
      constructor
      · intro hcon
        rw [hcon.2] at hyws
        simp [isSpace] at hyws
      · intro hcon
        rw [hcon.2] at hyws
        simp at hyws
    · intro x hx y hy
      have hxws : isSpace x = false := hal x (by simpa using hx)
      have hynl : '\n' = y := by simpa using hy
      subst hynl
      constructor
      · intro hcon
        rw [hcon.1] at hxws
        simp at hxws
      · intro hcon
        rw [hcon.1] at hxws
        simp [isSpace] at hxws

/-- The newline join of a non-empty list of clean texts is clean. -/
theorem cleanText_joinNl {xs : List Str} (hne : xs ≠ []) (h : ∀ x ∈ xs, CleanText x) :
    CleanText (joinNl xs) := by
  induction xs with
  | nil => exact absurd rfl hne
  | cons x r ih =>
    cases r with
    | nil => simpa [joinNl] using h x (by simp)
    | cons y r2 =>
      rw [joinNl]
      exact cleanText_append_nl (h x (by simp))
        (ih (by simp) (fun z hz => h z (List.mem_cons_of_mem x hz)))

/-! ## splitNl and joinNl lemmas -/

/-- Splitting yields at least one line. -/
theorem splitNl_ne_nil (s : Str) : splitNl s ≠ [] := by
  induction s with
  | nil => simp [splitNl]
  | cons c r ih =>
    rw [splitNl]
    by_cases hc : c = '\n'
    · simp [hc]
    · simp only [hc, if_false]
      cases hr : splitNl r with
      | nil => simp
      | cons h t => simp

/-- Joining the lines restores the string. -/
theorem joinNl_splitNl (s : Str) : joinNl (splitNl s) = s := by
  induction s with
  | nil => rfl
  | cons c r ih =>
    rw [splitNl]
    by_cases hc : c = '\n'
    · subst hc
      simp only [if_pos rfl]
      cases hsp : splitNl r with
      | nil => exact absurd hsp (splitNl_ne_nil r)
      | cons h t =>
        rw [hsp] at ih
        show joinNl ([] :: h :: t) = '\n' :: r
        rw [joinNl]
        rw [ih]
        rfl
    · simp only [hc, if_false]
      cases hsp : splitNl r with
      | nil => exact absurd hsp (splitNl_ne_nil r)
      | cons h t =>
        rw [hsp] at ih
        cases t with
        | nil =>
          show joinNl [c :: h] = c :: r
          rw [joinNl] at ih ⊢
          rw [ih]
        | cons u t2 =>
          show joinNl ((c :: h) :: u :: t2) = c :: r
          rw [joinNl]
          rw [joinNl] at ih
          rw [List.cons_append, ih]

/-- A newline-free string is a single line. -/
theorem splitNl_no_nl {s : Str} (h : '\n' ∉ s) : splitNl s = [s] := by
  induction s with
  | nil => rfl
  | cons c r ih =>
    have hc : c ≠ '\n' := fun hcc => h (by simp [hcc])
    have hr : '\n' ∉ r := fun hm => h (List.mem_cons_of_mem c hm)
    rw [splitNl]
    simp only [hc, if_false]
    rw [ih hr]

/-- Splitting around an explicit newline after a newline-free prefix. -/
theorem splitNl_append_nl {a : Str} (b : Str) (ha : '\n' ∉ a) :
    splitNl (a ++ '\n' :: b) = a :: splitNl b := by
  induction a with
  | nil =>
    show splitNl ('\n' :: b) = [] :: splitNl b
    rw [splitNl]
    simp
  | cons c r ih =>
    have hc : c ≠ '\n' := fun hcc => ha (by simp [hcc])
    have hr : '\n' ∉ r := fun hm => ha (List.mem_cons_of_mem c hm)
    rw [List.cons_append, splitNl]
    simp only [hc, if_false]
    rw [ih hr]

/-- Lines contain no newline characters. -/
theorem splitNl_mem_no_nl {s : Str} : ∀ ln ∈ splitNl s, '\n' ∉ ln := by
  induction s with
  | nil => intro ln hln; simp [splitNl] at hln; simp [hln]
  | cons c r ih =>
    intro ln hln
    rw [splitNl] at hln
    by_cases hc : c = '\n'
    · simp only [hc, if_pos rfl] at hln
      rcases List.mem_cons.mp hln with h1 | h2
      · simp [h1]
      · exact ih ln h2
    · simp only [hc, if_false] at hln
      cases hr : splitNl r with
      | nil => exact absurd hr (splitNl_ne_nil r)
      | cons h t =>
        rw [hr] at hln
        rcases List.mem_cons.mp hln with h1 | h2
        · subst h1
          intro hmem
          rcases List.mem_cons.mp hmem with h3 | h4
          · exact hc h3.symm
          · exact ih h (by rw [hr]; simp) h4
        · exact ih ln (by rw [hr]; exact List.mem_cons_of_mem h h2)

/-- The non-whitespace content of a newline join is the concatenation of
the parts' non-whitespace content. -/
theorem filterNW_joinNl (xs : List Str) :
    filterNW (joinNl xs) = (xs.map filterNW).flatten := by
  induction xs with
  | nil => rfl
  | cons x r ih =>
    cases r with
    | nil => show filterNW x = filterNW x ++ [] ; simp
    | cons y t =>
      rw [joinNl, filterNW_append]
      have h2 : filterNW ('\n' :: joinNl (y :: t)) = filterNW (joinNl (y :: t)) := by
        have hns : (!isSpace '\n') = false := by decide
        simp [filterNW, List.filter_cons, hns]
      rw [h2, ih]
      rfl

/-- The element lengths are bounded by the joined length. -/
theorem sumLen_le_joinNl (xs : List Str) : sumLen xs ≤ (joinNl xs).length := by
  induction xs with
  | nil => simp [sumLen, joinNl]
  | cons x r ih =>
    cases r with
    | nil => simp [sumLen, joinNl]
    | cons y t =>
      rw [joinNl]
      have : sumLen (x :: y :: t) = x.length + sumLen (y :: t) := by
        simp [sumLen]
      rw [this]
      simp only [List.length_append, List.length_cons]
      have := ih
      omega

/-- The head surviving any `dropWhile` falsifies the predicate. -/
theorem head?_dropWhile_false (p : Char → Bool) (s : Str) (c : Char)
    (h : (s.dropWhile p).head? = some c) : p c = false := by
  induction s with
  | nil => simp at h
  | cons d r ih =>
    rw [List.dropWhile_cons] at h
    by_cases hd : p d = true
    · rw [if_pos hd] at h; exact ih h
    · rw [if_neg hd] at h
      simp only [List.head?_cons, Option.some.injEq] at h
      subst h
      simpa using hd

/-- Lines of a clean text are non-blank and already stripped (bounded
induction on the length). -/
theorem cleanText_lines_aux : ∀ (n : Nat) (t : Str), t.length ≤ n → CleanText t →
    ∀ ln ∈ splitNl t, ln ≠ [] ∧ strip ln = ln := by
  intro n
  induction n with
  | zero =>
    intro t ht hc ln hln
    obtain ⟨hne, _, _, _⟩ := hc
    cases t with
    | nil => exact absurd rfl hne
    | cons c r => simp at ht
  | succ n ih =>
    intro t ht hc ln hln
    obtain ⟨hne, hh, hl, hch⟩ := hc
    by_cases hnl : '\n' ∈ t
    · have hsplit := (List.takeWhile_append_dropWhile (fun c => c != '\n') t).symm
      set a := t.takeWhile (fun c => c != '\n') with ha
      set d := t.dropWhile (fun c => c != '\n') with hd
      have hanl : '\n' ∉ a := by
        intro hm
        have := List.mem_takeWhile_imp hm
        simp at this
      cases hdc : d with
      | nil =>
        rw [hdc] at hsplit
        rw [List.append_nil] at hsplit
        rw [hsplit] at hnl
        exact absurd hnl hanl
      | cons e d' =>
        have he : e = '\n' := by
          have h1 : (fun c => c != '\n') e = false := by
            apply head?_dropWhile_false (fun c => c != '\n') t e
            rw [← hd, hdc]
            rfl
          simpa using h1
        subst he
        have ht2 : t = a ++ '\n' :: d' := by rw [hsplit, hdc]
        rw [ht2, splitNl_append_nl d' hanl] at hln
        have hane : a ≠ [] := by
          intro hcon
          rw [hcon] at ht2
          have : isSpace '\n' = false := hh '\n' (by rw [ht2]; rfl)
          simp [isSpace] at this
        have hchsplit := List.chain'_append.mp (by rw [← ht2]; exact hch)
        obtain ⟨chA, chB, hjun⟩ := hchsplit
        rcases List.mem_cons.mp hln with h1 | h2
        · rw [h1]
          refine ⟨hane, strip_eq_self a ?_ ?_⟩
          · intro c hcA
            apply hh
            rw [ht2, List.head?_append, hcA]
            rfl
          · intro c hcL
            have hadj := hjun c (by simp [hcL]) '\n' (by simp)
            by_contra hcon
            exact hadj.1 ⟨by simpa using hcon, rfl⟩
        · have hd'ne : d' ≠ [] := by
            intro hcon
            rw [hcon] at ht2
            have hlt : t.getLast? = some '\n' := by
              rw [ht2, getLast?_append_right a ['\n'] (by simp)]
              rfl
            have := hl '\n' hlt
            simp [isSpace] at this
          have hchb := List.chain'_cons'.mp chB
          obtain ⟨hjun2, chd'⟩ := hchb
          refine ih d' ?_ ⟨hd'ne, ?_, ?_, chd'⟩ ln h2
          · have := congrArg List.length ht2
            simp at this
            omega
          · intro c hcH
            have hadj := hjun2 c (by simp [hcH])
            by_contra hcon
            exact hadj.2 ⟨rfl, by simpa using hcon⟩
          · intro c hcL
            apply hl
            rw [ht2, getLast?_append_right a ('\n' :: d') (by simp),
              getLast?_cons_ne_nil '\n' d' hd'ne]
            exact hcL
    · rw [splitNl_no_nl hnl] at hln
      have hlt : ln = t := by simpa using hln
      rw [hlt]
      exact ⟨hne, strip_eq_self t hh hl⟩

/-- Lines of a clean text are non-blank and already stripped. -/
theorem cleanText_lines {t : Str} (h : CleanText t) :
    ∀ ln ∈ splitNl t, ln ≠ [] ∧ strip ln = ln :=
  cleanText_lines_aux t.length t le_rfl h

/-! ## splitAtSentence lemmas -/

/-- A last sentence match ends at a position of at least 2, within the
window, and the character right before the end is whitespace. -/
theorem lastMatchEnd_spec {w : Str} {e : Nat} (h : lastMatchEnd w = some e) :
    2 ≤ e ∧ e ≤ w.length ∧ e - 1 < w.length ∧ isSpace (w.getD (e - 1) 'x') = true := by
  unfold lastMatchEnd at h
  cases hgl : (punctPositions w).getLast? with
  | none => rw [hgl] at h; simp at h
  | some i =>
    rw [hgl] at h
    simp only [Option.some.injEq] at h
    have hmem := mem_of_getLast?_eq _ _ hgl
    unfold punctPositions at hmem
    have hmem2 := List.mem_filter.mp hmem
    obtain ⟨hrange, hcond⟩ := hmem2
    have hilt : i < w.length := List.mem_range.mp hrange
    simp only [Bool.and_eq_true, decide_eq_true_eq] at hcond
    obtain ⟨⟨_, hi1⟩, hws⟩ := hcond
    -- the whitespace run after position i is non-empty
    have hdropne : w.drop (i + 1) ≠ [] := by
      intro hcon
      have := congrArg List.length hcon
      simp at this
      omega
    have hrun_pos : 1 ≤ ((w.drop (i + 1)).takeWhile isSpace).length := by
      cases hdc : w.drop (i + 1) with
      | nil => exact absurd hdc hdropne
      | cons c rest =>
        have hc : c = w.getD (i + 1) 'x' := by
          have h1 : (w.drop (i + 1)).head? = some c := by rw [hdc]; rfl
          rw [List.head?_drop] at h1
          rw [List.getD_eq_getElem?_getD, h1]
          rfl
        rw [List.takeWhile_cons, hc, hws]
        simp
    have hrun_le : ((w.drop (i + 1)).takeWhile isSpace).length ≤ w.length - (i + 1) := by
      calc ((w.drop (i + 1)).takeWhile isSpace).length ≤ (w.drop (i + 1)).length :=
            (List.takeWhile_prefix _).length_le
        _ = w.length - (i + 1) := List.length_drop ..
    refine ⟨by omega, by omega, by omega, ?_⟩
    -- the character at e-1 sits inside the whitespace run
    set run := (w.drop (i + 1)).takeWhile isSpace with hrun
    have hidx : e - 1 = i + 1 + (run.length - 1) := by omega
    have hlt3 : run.length - 1 < run.length := by omega
    have h5 : (w.drop (i + 1))[run.length - 1]? = run[run.length - 1]? := by
      obtain ⟨tail, htail⟩ := @List.takeWhile_prefix _ (w.drop (i + 1)) isSpace
      rw [← hrun] at htail
      rw [← htail, List.getElem?_append_left hlt3]
    obtain ⟨x, hx⟩ : ∃ x, run[run.length - 1]? = some x :=
      ⟨_, List.getElem?_eq_getElem hlt3⟩
    have hmem : x ∈ run := List.getElem?_mem hx
    have hwsrun : isSpace x = true := List.mem_takeWhile_imp (hrun ▸ hmem)
    have hfinal : w[e - 1]? = run[run.length - 1]? := by
      rw [hidx, ← List.getElem?_drop, h5]
    rw [List.getD_eq_getElem?_getD, hfinal, hx]
    simpa using hwsrun

/-- A non-whitespace character survives in the strip of any prefix that
contains it as head. -/
theorem strip_ne_nil_of_head {s : Str} {c : Char} (hh : s.head? = some c)
    (hws : isSpace c = false) : strip s ≠ [] := by
  intro hcon
  rw [strip_eq_nil_iff] at hcon
  cases s with
  | nil => simp at hh
  | cons d r =>
    simp only [List.head?_cons, Option.some.injEq] at hh
    rw [← hh] at hws
    have hmem : d ∈ filterNW (d :: r) := List.mem_filter.mpr ⟨by simp, by simp [hws]⟩
    rw [hcon] at hmem
    simp at hmem

/-- When a string is stripped at the end and its last character within the
first `e` positions is whitespace, stripping shortens the prefix below
`e`. -/
theorem rstrip_length_lt {s : Str} {c : Char} (h : s.getLast? = some c)
    (hws : isSpace c = true) : (rstrip s).length < s.length := by
  unfold rstrip
  cases hrv : s.reverse with
  | nil =>
    have : s = [] := by simpa using congrArg List.reverse hrv
    rw [this] at h
    simp at h
  | cons d rest =>
    have hd : d = c := by
      have h1 : s.reverse.head? = some d := by rw [hrv]; rfl
      rw [List.head?_reverse] at h1
      rw [h] at h1
      exact (Option.some.injEq ..).mp h1.symm
    rw [List.dropWhile_cons, hd, if_pos hws]
    have h2 := (@List.dropWhile_suffix _ rest isSpace).length_le
    have h3 : s.length = rest.length + 1 := by
      have := congrArg List.length hrv
      simpa using this
    simp only [List.length_reverse]
    omega

/-- Size bound of the first component (chunking.py lines 15-26): for a
positive budget the emitted prefix never exceeds it — the sentence-boundary
cut ends in stripped whitespace and the hard cut takes `maxLen`
characters. -/
theorem splitAtSentence_fst_le {t : Str} {m : Nat} (hm : 1 ≤ m) :
    (splitAtSentence t m).1.length ≤ m := by
  unfold splitAtSentence
  by_cases hlen : t.length ≤ m
  · simp [hlen]
  · simp only [hlen, if_false]
    cases h : lastMatchEnd (t.take (m + 1)) with
    | none =>
      simp only []
      calc (strip (t.take m)).length ≤ (t.take m).length := strip_length_le _
        _ ≤ m := by simp [List.length_take]
    | some e =>
      simp only []
      obtain ⟨he2, hele, hlt, hws⟩ := lastMatchEnd_spec h
      have hwin : (t.take (m + 1)).length = m + 1 := by
        rw [List.length_take]
        omega
      have hee : e ≤ m + 1 := by omega
      -- the last character of `t.take e` is whitespace
      have htake_len : (t.take e).length = e := by
        rw [List.length_take]
        omega
      have htake_ne : t.take e ≠ [] := by
        intro hcon
        have := congrArg List.length hcon
        rw [htake_len] at this
        simp at this
        omega
      have hlast : (t.take e).getLast? = some (t.getD (e - 1) 'x') := by
        have h1 : e - 1 < (t.take e).length := by omega
        rw [List.getLast?_eq_getElem?]
        rw [htake_len]
        rw [List.getElem?_eq_getElem (by omega : e - 1 < (t.take e).length)]
        rw [List.getElem_take]
        rw [List.getD_eq_getElem?_getD]
        rw [List.getElem?_eq_getElem (by omega : e - 1 < t.length)]
        rfl
      have hwst : isSpace (t.getD (e - 1) 'x') = true := by
        have h1 : (t.take (m + 1)).getD (e - 1) 'x' = t.getD (e - 1) 'x' := by
          rw [List.getD_eq_getElem?_getD, List.getD_eq_getElem?_getD]
          rw [List.getElem?_eq_getElem (by omega : e - 1 < (t.take (m + 1)).length)]
          rw [List.getElem?_eq_getElem (by omega : e - 1 < t.length)]
          rw [List.getElem_take]
        rw [← h1]
        exact hws
      -- stripping removes at least that whitespace character
      by_cases hls : lstrip (t.take e) = []
      · have : strip (t.take e) = [] := by
          unfold strip
          rw [hls]
          rfl
        rw [this]
        simp
      · have hlslast : (lstrip (t.take e)).getLast? = some (t.getD (e - 1) 'x') := by
          obtain ⟨u, hu⟩ := lstrip_suffix (t.take e)
          rw [← hu] at hlast
          rwa [getLast?_append_right u _ hls] at hlast
        have hrl := rstrip_length_lt hlslast hwst
        have : (strip (t.take e)).length < (lstrip (t.take e)).length := hrl
        have h2 : (lstrip (t.take e)).length ≤ (t.take e).length :=
          (lstrip_suffix _).length_le
        omega

/-- The split partitions the non-whitespace characters. -/
theorem splitAtSentence_filterNW (t : Str) (m : Nat) :
    filterNW (splitAtSentence t m).1 ++ filterNW (splitAtSentence t m).2 = filterNW t := by
  unfold splitAtSentence
  by_cases hlen : t.length ≤ m
  · simp [hlen, filterNW]
  · simp only [hlen, if_false]
    cases lastMatchEnd (t.take (m + 1)) with
    | some e =>
      simp only []
      rw [filterNW_strip, filterNW_strip, ← filterNW_append, List.take_append_drop]
    | none =>
      simp only []
      rw [filterNW_strip, filterNW_strip, ← filterNW_append, List.take_append_drop]

/-- The remainder strictly shrinks (for positive budget and an oversized
input). -/
theorem splitAtSentence_snd_lt {t : Str} {m : Nat} (hm : 1 ≤ m) (hlen : m < t.length) :
    (splitAtSentence t m).2.length < t.length := by
  unfold splitAtSentence
  have hlen2 : ¬ t.length ≤ m := by omega
  simp only [hlen2, if_false]
  cases h : lastMatchEnd (t.take (m + 1)) with
  | some e =>
    obtain ⟨he2, _, _, _⟩ := lastMatchEnd_spec h
    simp only []
    calc (strip (t.drop e)).length ≤ (t.drop e).length := strip_length_le _
      _ = t.length - e := List.length_drop ..
      _ < t.length := by omega
  | none =>
    simp only []
    calc (strip (t.drop m)).length ≤ (t.drop m).length := strip_length_le _
      _ = t.length - m := List.length_drop ..
      _ < t.length := by omega

/-- Both pieces of a clean text are empty or clean. -/
theorem splitAtSentence_clean {t : Str} (m : Nat) (hc : CleanText t) :
    ((splitAtSentence t m).1 = [] ∨ CleanText (splitAtSentence t m).1) ∧
    ((splitAtSentence t m).2 = [] ∨ CleanText (splitAtSentence t m).2) := by
  obtain ⟨hne, hh, hl, hch⟩ := hc
  unfold splitAtSentence
  by_cases hlen : t.length ≤ m
  · simp only [hlen, if_true]
    refine ⟨Or.inr ⟨hne, hh, hl, hch⟩, ?_⟩
    simp
  · simp only [hlen, if_false]
    cases lastMatchEnd (t.take (m + 1)) with
    | some e =>
      exact ⟨cleanText_strip (hch.take e), cleanText_strip (hch.drop e)⟩
    | none =>
      exact ⟨cleanText_strip (hch.take m), cleanText_strip (hch.drop m)⟩

/-- The first piece is non-empty when the budget is positive, the input
oversized, and the input's head not whitespace. -/
theorem splitAtSentence_fst_ne {t : Str} {m : Nat} (hm : 1 ≤ m) (hlen : m < t.length)
    (hh : ∀ c, t.head? = some c → isSpace c = false) : (splitAtSentence t m).1 ≠ [] := by
  unfold splitAtSentence
  have hlen2 : ¬ t.length ≤ m := by omega
  simp only [hlen2, if_false]
  cases t with
  | nil => simp at hlen
  | cons c r =>
    have hcws : isSpace c = false := hh c rfl
    cases h : lastMatchEnd ((c :: r).take (m + 1)) with
    | some e =>
      obtain ⟨he2, _, _, _⟩ := lastMatchEnd_spec h
      show strip ((c :: r).take e) ≠ []
      cases e with
      | zero => omega
      | succ e' =>
        rw [List.take_succ_cons]
        exact strip_ne_nil_of_head rfl hcws
    | none =>
      show strip ((c :: r).take m) ≠ []
      cases m with
      | zero => omega
      | succ m' =>
        rw [List.take_succ_cons]
        exact strip_ne_nil_of_head rfl hcws

/-! ## paraSplit lemmas -/

/-- A found last-newline index is in range. -/
theorem lastNlIdx_spec {l : Str} {k : Nat} (h : lastNlIdx l = some k) : k < l.length := by
  unfold lastNlIdx at h
  have hmem := mem_of_getLast?_eq _ _ h
  exact List.mem_range.mp (List.mem_filter.mp hmem).1

/-- The paragraph split preserves the non-whitespace characters: every
removed separator is pure whitespace. -/
theorem paraSplitAux_filterNW : ∀ (f : Nat) (acc rest : Str),
    ((paraSplitAux f acc rest).map filterNW).flatten = filterNW acc ++ filterNW rest := by
  intro f
  induction f with
  | zero => intro acc rest; simp [paraSplitAux, filterNW_append]
  | succ f ih =>
    intro acc rest
    cases rest with
    | nil => simp [paraSplitAux, filterNW]
    | cons c r =>
      rw [paraSplitAux]
      by_cases hc : c = '\n'
      · subst hc
        rw [if_pos rfl]
        have hnlr : filterNW ('\n' :: r) = filterNW r := by
          have hns : (!isSpace '\n') = false := by decide
          simp [filterNW, List.filter_cons, hns]
        cases hk : lastNlIdx (r.takeWhile isSpace) with
        | none =>
          simp only [hk]
          rw [ih]
          rw [filterNW_append, hnlr]
          have : filterNW ['\n'] = [] := by decide
          rw [this]
          simp
        | some k =>
          simp only [hk]
          have hklt := lastNlIdx_spec hk
          have hfilter_take : filterNW (r.take (k + 1)) = [] := by
            have hsub : r.take (k + 1) = (r.takeWhile isSpace).take (k + 1) := by
              obtain ⟨tl, htl⟩ := @List.takeWhile_prefix _ r isSpace
              conv_lhs => rw [← htl]
              rw [List.take_append_of_le_length (by omega)]
            rw [hsub]
            unfold filterNW
            rw [List.filter_eq_nil_iff]
            intro a ha
            have := List.mem_takeWhile_imp ((List.take_subset _ _) ha)
            simp [this]
          show (filterNW acc ++ ((paraSplitAux f [] (r.drop (k + 1))).map filterNW).flatten) = _
          rw [ih]
          rw [hnlr]
          have hr : filterNW r = filterNW (r.take (k + 1)) ++ filterNW (r.drop (k + 1)) := by
            rw [← filterNW_append, List.take_append_drop]
          rw [hr, hfilter_take]
          simp [filterNW]
      · rw [if_neg hc]
        rw [ih]
        rw [filterNW_append]
        have : filterNW [c] ++ filterNW r = filterNW (c :: r) := by
          rw [← filterNW_append]
          rfl
        rw [List.append_assoc, this]

/-- On a text obeying the adjacency discipline the paragraph regex never
matches: the split returns the input whole. -/
theorem paraSplitAux_clean : ∀ (f : Nat) (acc rest : Str), List.Chain' cleanAdj rest →
    paraSplitAux f acc rest = [acc ++ rest] := by
  intro f
  induction f with
  | zero => intro acc rest _; rfl
  | succ f ih =>
    intro acc rest h
    cases rest with
    | nil => simp [paraSplitAux]
    | cons c r =>
      rw [paraSplitAux]
      by_cases hc : c = '\n'
      · subst hc
        rw [if_pos rfl]
        have hrun : r.takeWhile isSpace = [] := by
          cases r with
          | nil => rfl
          | cons d r2 =>
            have hpair := (List.chain'_cons.mp h).1
            have hd : isSpace d = false := by
              by_contra hcon
              exact hpair.2 ⟨rfl, by simpa using hcon⟩
            rw [List.takeWhile_cons, hd]
            rfl
        have hnone : lastNlIdx (r.takeWhile isSpace) = none := by rw [hrun]; rfl
        simp only [hnone]
        rw [ih (acc ++ ['\n']) r (List.chain'_cons'.mp h).2]
        simp
      · rw [if_neg hc]
        rw [ih (acc ++ [c]) r (List.chain'_cons'.mp h).2]
        simp

/-- Splitting a clean text into paragraphs is the identity. -/
theorem paraSplit_clean {t : Str} (h : CleanText t) : paraSplit t = [t] := by
  unfold paraSplit
  rw [paraSplitAux_clean _ [] t h.2.2.2]
  simp

/-! ## Loop unfolding helpers -/

/-- One step of `sizeLoop`, with the lets expanded. -/
theorem sizeLoop_succ_unfold (maxChars f : Nat) (title : Option Str) (cur : List Str)
    (chunks : List Chunk) :
    sizeLoop maxChars (f + 1) title cur chunks =
      if sumLen cur ≤ maxChars then (chunks, title, cur)
      else
        (if (splitAtSentence (joinNl cur) maxChars).2 = [] then
          ((if (splitAtSentence (joinNl cur) maxChars).1 = [] then chunks
            else chunks ++ [⟨title.getD unknownLabel, (splitAtSentence (joinNl cur) maxChars).1⟩]),
           none, [])
        else sizeLoop maxChars f title [(splitAtSentence (joinNl cur) maxChars).2]
          (if (splitAtSentence (joinNl cur) maxChars).1 = [] then chunks
           else chunks ++ [⟨title.getD unknownLabel, (splitAtSentence (joinNl cur) maxChars).1⟩])) :=
  rfl

/-- One step of `mainLoop` on a non-blank line, with the lets expanded. -/
theorem mainLoop_cons_unfold (maxChars : Nat) (ln : Str) (rest : List Str)
    (title : Option Str) (cur : List Str) (chunks : List Chunk) (hln : ln ≠ []) :
    mainLoop maxChars (ln :: rest) title cur chunks =
      (match (if headingCandidate ln then
                (some ln, [ln], flushChunks title cur chunks)
              else (title, cur ++ [ln], chunks)) with
       | (title2, cur2, chunks2) =>
         match sizeLoop maxChars ((joinNl cur2).length + 1) title2 cur2 chunks2 with
         | (chunks3, title3, cur3) => mainLoop maxChars rest title3 cur3 chunks3) := by
  rw [mainLoop]
  try rw [if_neg hln]

/-- One step of `partWhile` on an oversized part. -/
theorem partWhile_succ_unfold (s : Str) (maxChars f : Nat) (part : Str) (out : List Chunk) :
    partWhile s maxChars (f + 1) part out =
      if part.length ≤ maxChars then (out, part)
      else partWhile s maxChars f (splitAtSentence part maxChars).2
        (out ++ [⟨contTitle s out, (splitAtSentence part maxChars).1⟩]) :=
  rfl

/-- One step of `partsFold`. -/
theorem partsFold_cons_unfold (s : Str) (maxChars : Nat) (p : Str) (rest : List Str)
    (out : List Chunk) :
    partsFold s maxChars (p :: rest) out =
      if strip p = [] then partsFold s maxChars rest out
      else
        (match partWhile s maxChars ((strip p).length + 1) (strip p) out with
         | (out2, lastPart) =>
           partsFold s maxChars rest
             (if lastPart = [] then out2 else out2 ++ [⟨contTitle s out2, lastPart⟩])) := by
  rw [partsFold]

/-- `flushChunks`, with the let expanded. -/
theorem flushChunks_unfold (title : Option Str) (cur : List Str) (chunks : List Chunk) :
    flushChunks title cur chunks =
      if cur = [] then chunks
      else if strip (joinNl cur) = [] then chunks
      else chunks ++ [⟨title.getD unknownLabel, strip (joinNl cur)⟩] :=
  rfl

/-! ## Clean-text invariants through the loops -/

/-- Both split pieces are stripped once the input is oversized. -/
theorem splitAtSentence_stripped {t : Str} {m : Nat} (hlen : m < t.length) :
    strip (splitAtSentence t m).1 = (splitAtSentence t m).1 ∧
    strip (splitAtSentence t m).2 = (splitAtSentence t m).2 := by
  unfold splitAtSentence
  have h2 : ¬ t.length ≤ m := by omega
  simp only [h2, if_false]
  cases lastMatchEnd (t.take (m + 1)) with
  | some e => exact ⟨strip_idem _, strip_idem _⟩
  | none => exact ⟨strip_idem _, strip_idem _⟩

/-- `flushChunks` preserves cleanliness of all chunk texts. -/
theorem flushChunks_clean (title : Option Str) {cur : List Str} {chunks : List Chunk}
    (hcur : ∀ x ∈ cur, CleanText x) (hch : ∀ c ∈ chunks, CleanText c.text) :
    ∀ c ∈ flushChunks title cur chunks, CleanText c.text := by
  rw [flushChunks_unfold]
  by_cases h1 : cur = []
  · rw [if_pos h1]; exact hch
  · rw [if_neg h1]
    by_cases h2 : strip (joinNl cur) = []
    · rw [if_pos h2]; exact hch
    · rw [if_neg h2]
      intro c hc
      rcases List.mem_append.mp hc with hc1 | hc2
      · exact hch c hc1
      · have hcs : c = ⟨title.getD unknownLabel, strip (joinNl cur)⟩ := by simpa using hc2
        rw [hcs]
        have hjoin : CleanText (joinNl cur) := cleanText_joinNl h1 hcur
        show CleanText (strip (joinNl cur))
        rw [strip_of_clean hjoin]
        exact hjoin

/-- `sizeLoop` preserves cleanliness of the produced chunks and of the
buffer. -/
theorem sizeLoop_clean (maxChars : Nat) :
    ∀ (f : Nat) (title : Option Str) (cur : List Str) (chunks : List Chunk),
    (∀ x ∈ cur, CleanText x) → (∀ c ∈ chunks, CleanText c.text) →
    (∀ c ∈ (sizeLoop maxChars f title cur chunks).1, CleanText c.text) ∧
    (∀ x ∈ (sizeLoop maxChars f title cur chunks).2.2, CleanText x) := by
  intro f
  induction f with
  | zero =>
    intro title cur chunks hcur hch
    exact ⟨hch, hcur⟩
  | succ f ih =>
    intro title cur chunks hcur hch
    rw [sizeLoop_succ_unfold]
    by_cases hsum : sumLen cur ≤ maxChars
    · rw [if_pos hsum]; exact ⟨hch, hcur⟩
    · rw [if_neg hsum]
      have hcurne : cur ≠ [] := by
        intro hcon
        rw [hcon] at hsum
        simp [sumLen] at hsum
      have hjoin : CleanText (joinNl cur) := cleanText_joinNl hcurne hcur
      have hpieces := splitAtSentence_clean maxChars hjoin
      have hch2 : ∀ c ∈ (if (splitAtSentence (joinNl cur) maxChars).1 = [] then chunks
          else chunks ++ [⟨title.getD unknownLabel, (splitAtSentence (joinNl cur) maxChars).1⟩]),
          CleanText c.text := by
        by_cases hb1 : (splitAtSentence (joinNl cur) maxChars).1 = []
        · rw [if_pos hb1]; exact hch
        · rw [if_neg hb1]
          intro c hc
          rcases List.mem_append.mp hc with hc1 | hc2
          · exact hch c hc1
          · have hcs : c = ⟨title.getD unknownLabel, (splitAtSentence (joinNl cur) maxChars).1⟩ :=
              by simpa using hc2
            rw [hcs]
            rcases hpieces.1 with he | hcl
            · exact absurd he hb1
            · exact hcl
      by_cases hb2 : (splitAtSentence (joinNl cur) maxChars).2 = []
      · rw [if_pos hb2]
        refine ⟨hch2, ?_⟩
        intro x hx
        simp at hx
      · rw [if_neg hb2]
        apply ih
        · intro x hx
          have hxx : x = (splitAtSentence (joinNl cur) maxChars).2 := by simpa using hx
          rw [hxx]
          rcases hpieces.2 with he | hcl
          · exact absurd he hb2
          · exact hcl
        · exact hch2

/-- `mainLoop` preserves cleanliness of the produced chunks and of the
buffer, given stripped newline-free input lines. -/
theorem mainLoop_clean (maxChars : Nat) :
    ∀ (lines : List Str) (title : Option Str) (cur : List Str) (chunks : List Chunk),
    (∀ ln ∈ lines, strip ln = ln ∧ '\n' ∉ ln) →
    (∀ x ∈ cur, CleanText x) → (∀ c ∈ chunks, CleanText c.text) →
    (∀ c ∈ (mainLoop maxChars lines title cur chunks).1, CleanText c.text) ∧
    (∀ x ∈ (mainLoop maxChars lines title cur chunks).2.2, CleanText x) := by
  intro lines
  induction lines with
  | nil =>
    intro title cur chunks _ hcur hch
    exact ⟨hch, hcur⟩
  | cons ln rest ih =>
    intro title cur chunks hlines hcur hch
    obtain ⟨hstrip, hnl⟩ := hlines ln (by simp)
    have hrest : ∀ l ∈ rest, strip l = l ∧ '\n' ∉ l :=
      fun l hl => hlines l (List.mem_cons_of_mem ln hl)
    by_cases hempty : ln = []
    · rw [mainLoop, if_pos hempty]
      exact ih title cur chunks hrest hcur hch
    · rw [mainLoop_cons_unfold maxChars ln rest title cur chunks hempty]
      have hlnclean : CleanText ln := by
        have := cleanText_of_stripped_line (by rw [hstrip]; exact hempty) hnl
        rwa [hstrip] at this
      by_cases hhead : headingCandidate ln = true
      · simp only [hhead, if_true]
        have hone : ∀ x ∈ [ln], CleanText x := by
          intro x hx
          rw [show x = ln by simpa using hx]
          exact hlnclean
        have hsl := sizeLoop_clean maxChars ((joinNl [ln]).length + 1) (some ln) [ln]
          (flushChunks title cur chunks) hone (flushChunks_clean title hcur hch)
        exact ih _ _ _ hrest hsl.2 hsl.1
      · simp only [hhead, if_false]
        have hcur2 : ∀ x ∈ cur ++ [ln], CleanText x := by
          intro x hx
          rcases List.mem_append.mp hx with hx1 | hx2
          · exact hcur x hx1
          · rw [show x = ln by simpa using hx2]
            exact hlnclean
        have hsl := sizeLoop_clean maxChars ((joinNl (cur ++ [ln])).length + 1) title
          (cur ++ [ln]) chunks hcur2 hch
        exact ih _ _ _ hrest hsl.2 hsl.1

/-! ## Post-pass size and cleanliness -/

/-- `partWhile` only appends bounded clean pieces, leaves a bounded clean
(or empty) remainder, and consumes a non-empty part into at least one piece
or a non-empty remainder.  The fuel hypothesis is satisfiable because the
remainder strictly shrinks at every iteration. -/
theorem partWhile_spec (s : Str) (maxChars : Nat) (hm : 1 ≤ maxChars) :
    ∀ (f : Nat) (part : Str) (out : List Chunk), part.length < f →
    (part = [] ∨ CleanText part) →
    ∃ tail, (partWhile s maxChars f part out).1 = out ++ tail ∧
      (∀ c ∈ tail, c.text.length ≤ maxChars ∧ CleanText c.text) ∧
      (partWhile s maxChars f part out).2.length ≤ maxChars ∧
      ((partWhile s maxChars f part out).2 = [] ∨ CleanText (partWhile s maxChars f part out).2) ∧
      (part ≠ [] → tail ≠ [] ∨ (partWhile s maxChars f part out).2 ≠ []) := by
  intro f
  induction f with
  | zero =>
    intro part out hf
    omega
  | succ f ih =>
    intro part out hf hc
    rw [partWhile_succ_unfold]
    by_cases hlen : part.length ≤ maxChars
    · rw [if_pos hlen]
      exact ⟨[], by simp, by simp, hlen, hc, fun hne => Or.inr hne⟩
    · rw [if_neg hlen]
      have hclean : CleanText part := by
        rcases hc with hc1 | hc2
        · rw [hc1] at hlen; simp at hlen
        · exact hc2
      have hover : maxChars < part.length := by omega
      have hfst_ne : (splitAtSentence part maxChars).1 ≠ [] :=
        splitAtSentence_fst_ne hm hover hclean.2.1
      have hpieces := splitAtSentence_clean maxChars hclean
      have hfstclean : CleanText (splitAtSentence part maxChars).1 := by
        rcases hpieces.1 with he | hcl
        · exact absurd he hfst_ne
        · exact hcl
      have hfstle : (splitAtSentence part maxChars).1.length ≤ maxChars :=
        splitAtSentence_fst_le hm
      have hsndlt : (splitAtSentence part maxChars).2.length < part.length :=
        splitAtSentence_snd_lt hm hover
      obtain ⟨tail, htail, htgood, hrem, hremc, hcons⟩ :=
        ih (splitAtSentence part maxChars).2
          (out ++ [⟨contTitle s out, (splitAtSentence part maxChars).1⟩])
          (by omega) hpieces.2
      refine ⟨⟨contTitle s out, (splitAtSentence part maxChars).1⟩ :: tail, ?_, ?_, hrem, hremc, ?_⟩
      · rw [htail]
        simp
      · intro c hcmem
        rcases List.mem_cons.mp hcmem with hc1 | hc2
        · rw [hc1]
          exact ⟨hfstle, hfstclean⟩
        · exact htgood c hc2
      · intro _
        exact Or.inl (by simp)

/-- `partsFold` appends only bounded clean pieces when every part obeys the
adjacency discipline. -/
theorem partsFold_spec (s : Str) (maxChars : Nat) (hm : 1 ≤ maxChars) :
    ∀ (parts : List Str) (out : List Chunk),
    (∀ p ∈ parts, List.Chain' cleanAdj p) →
    ∃ tail, partsFold s maxChars parts out = out ++ tail ∧
      ∀ c ∈ tail, c.text.length ≤ maxChars ∧ CleanText c.text := by
  intro parts
  induction parts with
  | nil =>
    intro out _
    exact ⟨[], by simp [partsFold], by simp⟩
  | cons p rest ih =>
    intro out hp
    rw [partsFold_cons_unfold]
    by_cases hs : strip p = []
    · rw [if_pos hs]
      exact ih out (fun q hq => hp q (List.mem_cons_of_mem p hq))
    · rw [if_neg hs]
      have hpc : CleanText (strip p) := by
        rcases cleanText_strip (hp p (by simp)) with he | hcl
        · exact absurd he hs
        · exact hcl
      obtain ⟨tail1, htail1, hgood1, hrem, hremc, _⟩ :=
        partWhile_spec s maxChars hm ((strip p).length + 1) (strip p) out
          (by omega) (Or.inr hpc)
      have hout3 : ∀ st, partWhile s maxChars ((strip p).length + 1) (strip p) out = st →
          ∃ tail2, (if st.2 = [] then st.1 else st.1 ++ [⟨contTitle s st.1, st.2⟩]) =
            out ++ tail2 ∧ ∀ c ∈ tail2, c.text.length ≤ maxChars ∧ CleanText c.text := by
        intro st hst
        rw [hst] at htail1 hrem hremc
        by_cases h2 : st.2 = []
        · rw [if_pos h2]
          exact ⟨tail1, htail1, hgood1⟩
        · rw [if_neg h2]
          refine ⟨tail1 ++ [⟨contTitle s st.1, st.2⟩], by rw [htail1]; simp, ?_⟩
          intro c hcmem
          rcases List.mem_append.mp hcmem with hc1 | hc2
          · exact hgood1 c hc1
          · rw [show c = ⟨contTitle s st.1, st.2⟩ by simpa using hc2]
            refine ⟨hrem, ?_⟩
            rcases hremc with he | hcl
            · exact absurd he h2
            · exact hcl
      obtain ⟨tail2, htail2, hgood2⟩ :=
        hout3 (partWhile s maxChars ((strip p).length + 1) (strip p) out) rfl
      obtain ⟨tail3, htail3, hgood3⟩ :=
        ih (out ++ tail2) (fun q hq => hp q (List.mem_cons_of_mem p hq))
      refine ⟨tail2 ++ tail3, ?_, ?_⟩
      · show partsFold s maxChars rest
            (if (partWhile s maxChars ((strip p).length + 1) (strip p) out).2 = []
             then (partWhile s maxChars ((strip p).length + 1) (strip p) out).1
             else (partWhile s maxChars ((strip p).length + 1) (strip p) out).1 ++
               [⟨contTitle s (partWhile s maxChars ((strip p).length + 1) (strip p) out).1,
                 (partWhile s maxChars ((strip p).length + 1) (strip p) out).2⟩]) =
          out ++ (tail2 ++ tail3)
        rw [htail2, ← List.append_assoc]
        exact htail3
      · intro c hcmem
        rcases List.mem_append.mp hcmem with hc1 | hc2
        · exact hgood2 c hc1
        · exact hgood3 c hc2

/-- On an oversized clean chunk, `_split_large_chunk` yields only bounded
clean pieces (the non-empty fallback is never taken). -/
theorem splitLargeChunk_spec {c : Chunk} {maxChars : Nat} (hm : 1 ≤ maxChars)
    (hclean : CleanText c.text) :
    ∀ p ∈ splitLargeChunk c maxChars, p.text.length ≤ maxChars ∧ CleanText p.text := by
  unfold splitLargeChunk
  by_cases hlen : c.text.length ≤ maxChars
  · rw [if_pos hlen]
    intro p hp
    rw [show p = c by simpa using hp]
    exact ⟨hlen, hclean⟩
  · rw [if_neg hlen]
    have hcstrip : strip c.text = c.text := strip_of_clean hclean
    obtain ⟨tail1, htail1, hgood1, hrem, hremc, hcons⟩ :=
      partWhile_spec (if c.sec = [] then unknownLabel else c.sec) maxChars hm
        (c.text.length + 1) c.text [] (by omega) (Or.inr hclean)
    have hconsr := hcons hclean.1
    have hfold : partsFold (if c.sec = [] then unknownLabel else c.sec) maxChars
          (paraSplit c.text) [] ≠ [] ∧
        ∀ q ∈ partsFold (if c.sec = [] then unknownLabel else c.sec) maxChars
          (paraSplit c.text) [], q.text.length ≤ maxChars ∧ CleanText q.text := by
      rw [paraSplit_clean hclean, partsFold_cons_unfold,
        if_neg (by rw [hcstrip]; exact hclean.1), hcstrip]
      rcases hpw : partWhile (if c.sec = [] then unknownLabel else c.sec) maxChars
          (c.text.length + 1) c.text [] with ⟨out2, lastPart⟩
      rw [hpw] at htail1 hrem hremc hconsr
      have hout2 : out2 = tail1 := by simpa using htail1
      have hrem2 : lastPart.length ≤ maxChars := hrem
      have hremc2 : lastPart = [] ∨ CleanText lastPart := hremc
      have hconsr2 : tail1 ≠ [] ∨ lastPart ≠ [] := hconsr
      show ((if lastPart = [] then out2
          else out2 ++ [⟨contTitle (if c.sec = [] then unknownLabel else c.sec) out2, lastPart⟩]) ≠ []) ∧
        ∀ q ∈ (if lastPart = [] then out2
          else out2 ++ [⟨contTitle (if c.sec = [] then unknownLabel else c.sec) out2, lastPart⟩]),
          q.text.length ≤ maxChars ∧ CleanText q.text
      by_cases h2 : lastPart = []
      · rw [if_pos h2]
        refine ⟨?_, ?_⟩
        · rw [hout2]
          rcases hconsr2 with ht | hr
          · exact ht
          · exact absurd h2 hr
        · intro q hq
          exact hgood1 q (hout2 ▸ hq)
      · rw [if_neg h2]
        refine ⟨by simp, ?_⟩
        intro q hq
        rcases List.mem_append.mp hq with hq1 | hq2
        · exact hgood1 q (hout2 ▸ hq1)
        · rw [show q = ⟨contTitle (if c.sec = [] then unknownLabel else c.sec) out2, lastPart⟩
            by simpa using hq2]
          refine ⟨hrem2, ?_⟩
          rcases hremc2 with he | hcl
          · exact absurd he h2
          · exact hcl
    show ∀ p ∈ (if partsFold (if c.sec = [] then unknownLabel else c.sec) maxChars
          (paraSplit c.text) [] = [] then [c]
        else partsFold (if c.sec = [] then unknownLabel else c.sec) maxChars
          (paraSplit c.text) []), p.text.length ≤ maxChars ∧ CleanText p.text
    rw [if_neg hfold.1]
    exact hfold.2

/-! ## chunk_text assembly, claims C2 and C9 -/

/-- `chunk_text` with its match expanded into projections. -/
theorem chunk_text_unfold (text : Str) (maxChars : Nat) :
    chunk_text text maxChars =
      (flushChunks (mainLoop maxChars ((splitNl text).map strip) none [] []).2.1
        (mainLoop maxChars ((splitNl text).map strip) none [] []).2.2
        (mainLoop maxChars ((splitNl text).map strip) none [] []).1).flatMap
        (fun c => if c.text.length ≤ maxChars then [c] else splitLargeChunk c maxChars) := rfl

/-- Every chunk of the streaming pass (after the final flush) is clean. -/
theorem chunk_text_stream_clean (text : Str) (maxChars : Nat) :
    ∀ c ∈ flushChunks (mainLoop maxChars ((splitNl text).map strip) none [] []).2.1
        (mainLoop maxChars ((splitNl text).map strip) none [] []).2.2
        (mainLoop maxChars ((splitNl text).map strip) none [] []).1,
      CleanText c.text := by
  have hlines : ∀ ln ∈ (splitNl text).map strip, strip ln = ln ∧ '\n' ∉ ln := by
    intro ln hln
    obtain ⟨l0, hl0, hl0s⟩ := List.mem_map.mp hln
    constructor
    · rw [← hl0s]; exact strip_idem l0
    · rw [← hl0s]
      intro hmem
      exact splitNl_mem_no_nl l0 hl0 ((strip_inf l0).sublist.subset hmem)
  have hml := mainLoop_clean maxChars ((splitNl text).map strip) none [] [] hlines
    (by simp) (by simp)
  exact flushChunks_clean _ hml.2 hml.1

/-- Claim C2: for every document and every positive `max_chars`, every
segment returned by `chunk_text` has text of length at most `max_chars`.
This holds without exception — the hard character cut of
`_split_at_sentence` bounds even a single oversized sentence — so the
claim's allowance for single-sentence overruns is never needed. -/
theorem C2_segment_size_bound (doc : Str) (maxChars : Nat) (hm : 1 ≤ maxChars)
    (seg : Chunk) (hseg : seg ∈ chunk_text doc maxChars) : seg.text.length ≤ maxChars := by
  rw [chunk_text_unfold] at hseg
  obtain ⟨c, hc, hcm⟩ := List.mem_flatMap.mp hseg
  have hclean := chunk_text_stream_clean doc maxChars c hc
  by_cases hlen : c.text.length ≤ maxChars
  · rw [if_pos hlen] at hcm
    rw [show seg = c by simpa using hcm]
    exact hlen
  · rw [if_neg hlen] at hcm
    exact (splitLargeChunk_spec hm hclean seg hcm).1

/-- Witness for C2 on a concrete oversized document. -/
theorem C2_segment_size_bound_witness :
    1 ≤ 3 ∧ (⟨unknownLabel, ("abc").toList⟩ : Chunk) ∈ chunk_text (("abcdefgh").toList) 3 ∧
      (Chunk.mk unknownLabel (("abc").toList)).text.length ≤ 3 :=
  ⟨by decide, by decide,
    C2_segment_size_bound (("abcdefgh").toList) 3 (by decide) ⟨unknownLabel, ("abc").toList⟩
      (by decide)⟩

/-- Claim C9: for every document and positive `max_chars`, every line of
every returned segment text is non-blank and carries no leading or trailing
whitespace — segment texts are assembled only from individually stripped,
non-blank (pieces of) source lines, an invariant maintained by the
streaming pass and the oversized-chunk post-pass alike. -/
theorem C9_segment_lines_clean (doc : Str) (maxChars : Nat) (hm : 1 ≤ maxChars)
    (seg : Chunk) (hseg : seg ∈ chunk_text doc maxChars)
    (ln : Str) (hln : ln ∈ splitNl seg.text) : ln ≠ [] ∧ strip ln = ln := by
  rw [chunk_text_unfold] at hseg
  obtain ⟨c, hc, hcm⟩ := List.mem_flatMap.mp hseg
  have hclean := chunk_text_stream_clean doc maxChars c hc
  have hsegclean : CleanText seg.text := by
    by_cases hlen : c.text.length ≤ maxChars
    · rw [if_pos hlen] at hcm
      rw [show seg = c by simpa using hcm]
      exact hclean
    · rw [if_neg hlen] at hcm
      exact (splitLargeChunk_spec hm hclean seg hcm).2
  exact cleanText_lines hsegclean ln hln

/-- Witness for C9 on a concrete two-line document with interior blank and
padded lines. -/
theorem C9_segment_lines_clean_witness :
    1 ≤ 9 ∧ (⟨unknownLabel, ("a\nb").toList⟩ : Chunk) ∈ chunk_text ((" a \n\n b ").toList) 9 ∧
      ("a").toList ∈ splitNl (("a\nb").toList) ∧
      (("a").toList ≠ [] ∧ strip (("a").toList) = ("a").toList) :=
  ⟨by decide, by decide, by decide,
    C9_segment_lines_clean ((" a \n\n b ").toList) 9 (by decide)
      ⟨unknownLabel, ("a\nb").toList⟩ (by decide) (("a").toList) (by decide)⟩

/-! ## Non-whitespace content preservation (claim C3) -/

/-- Filtering distributes over a flattened list of lists. -/
theorem filterNW_flatten (xs : List Str) :
    filterNW xs.flatten = (xs.map filterNW).flatten := by
  induction xs with
  | nil => rfl
  | cons x r ih => rw [List.flatten_cons, filterNW_append, ih]; rfl

/-- The non-whitespace content carried by a chunk list. -/
theorem sizeLoop_filterNW (maxChars : Nat) :
    ∀ (f : Nat) (title : Option Str) (cur : List Str) (chunks : List Chunk),
    (((sizeLoop maxChars f title cur chunks).1.map (fun c => filterNW c.text)).flatten ++
      filterNW (joinNl (sizeLoop maxChars f title cur chunks).2.2)) =
    ((chunks.map (fun c => filterNW c.text)).flatten ++ filterNW (joinNl cur)) := by
  intro f
  induction f with
  | zero => intro title cur chunks; rfl
  | succ f ih =>
    intro title cur chunks
    rw [sizeLoop_succ_unfold]
    by_cases hsum : sumLen cur ≤ maxChars
    · rw [if_pos hsum]
    · rw [if_neg hsum]
      have hsplit := splitAtSentence_filterNW (joinNl cur) maxChars
      by_cases hb2 : (splitAtSentence (joinNl cur) maxChars).2 = []
      · rw [if_pos hb2]
        by_cases hb1 : (splitAtSentence (joinNl cur) maxChars).1 = []
        · rw [if_pos hb1]
          rw [hb1, hb2] at hsplit
          have hz : filterNW (joinNl cur) = [] := hsplit.symm
          show (chunks.map (fun c => filterNW c.text)).flatten ++ filterNW (joinNl []) =
            (chunks.map (fun c => filterNW c.text)).flatten ++ filterNW (joinNl cur)
          rw [hz]
          rfl
        · rw [if_neg hb1]
          rw [hb2] at hsplit
          have hz : filterNW (splitAtSentence (joinNl cur) maxChars).1 = filterNW (joinNl cur) := by
            rw [← hsplit]
            simp [filterNW]
          show ((chunks ++ [(⟨title.getD unknownLabel,
              (splitAtSentence (joinNl cur) maxChars).1⟩ : Chunk)]).map
              (fun c => filterNW c.text)).flatten ++ filterNW (joinNl []) =
            (chunks.map (fun c => filterNW c.text)).flatten ++ filterNW (joinNl cur)
          rw [List.map_append, List.flatten_append]
          rw [show ([(⟨title.getD unknownLabel,
              (splitAtSentence (joinNl cur) maxChars).1⟩ : Chunk)].map
              (fun c => filterNW c.text)).flatten =
            filterNW (splitAtSentence (joinNl cur) maxChars).1 from by simp]
          rw [hz]
          simp [joinNl, filterNW]
      · rw [if_neg hb2]
        rw [ih]
        by_cases hb1 : (splitAtSentence (joinNl cur) maxChars).1 = []
        · rw [if_pos hb1]
          rw [hb1] at hsplit
          have hz : filterNW (splitAtSentence (joinNl cur) maxChars).2 = filterNW (joinNl cur) := by
            rw [← hsplit]
            simp [filterNW]
          show (chunks.map (fun c => filterNW c.text)).flatten ++
              filterNW (joinNl [(splitAtSentence (joinNl cur) maxChars).2]) =
            (chunks.map (fun c => filterNW c.text)).flatten ++ filterNW (joinNl cur)
          rw [show joinNl [(splitAtSentence (joinNl cur) maxChars).2] =
            (splitAtSentence (joinNl cur) maxChars).2 from rfl]
          rw [hz]
        · rw [if_neg hb1]
          show ((chunks ++ [(⟨title.getD unknownLabel,
              (splitAtSentence (joinNl cur) maxChars).1⟩ : Chunk)]).map
              (fun c => filterNW c.text)).flatten ++
              filterNW (joinNl [(splitAtSentence (joinNl cur) maxChars).2]) =
            (chunks.map (fun c => filterNW c.text)).flatten ++ filterNW (joinNl cur)
          rw [List.map_append, List.flatten_append]
          rw [show ([(⟨title.getD unknownLabel,
              (splitAtSentence (joinNl cur) maxChars).1⟩ : Chunk)].map
              (fun c => filterNW c.text)).flatten =
            filterNW (splitAtSentence (joinNl cur) maxChars).1 from by simp]
          rw [show joinNl [(splitAtSentence (joinNl cur) maxChars).2] =
            (splitAtSentence (joinNl cur) maxChars).2 from rfl]
          rw [List.append_assoc, hsplit]

/-- `flushChunks` moves the buffer content into the chunk list. -/
theorem flushChunks_filterNW (title : Option Str) (cur : List Str) (chunks : List Chunk) :
    ((flushChunks title cur chunks).map (fun c => filterNW c.text)).flatten =
      (chunks.map (fun c => filterNW c.text)).flatten ++ filterNW (joinNl cur) := by
  rw [flushChunks_unfold]
  by_cases h1 : cur = []
  · rw [if_pos h1, h1]
    show _ = _ ++ filterNW (joinNl [])
    simp [joinNl, filterNW]
  · rw [if_neg h1]
    by_cases h2 : strip (joinNl cur) = []
    · rw [if_pos h2]
      have h3 : filterNW (joinNl cur) = [] := by
        rw [← filterNW_strip, h2]
        rfl
      rw [h3]
      simp
    · rw [if_neg h2]
      rw [List.map_append, List.flatten_append]
      rw [show ([⟨title.getD unknownLabel, strip (joinNl cur)⟩] : List Chunk).map
          (fun c => filterNW c.text) = [filterNW (strip (joinNl cur))] from rfl]
      rw [filterNW_strip]
      simp

/-- The streaming pass preserves the non-whitespace content of the
processed lines. -/
theorem mainLoop_filterNW (maxChars : Nat) :
    ∀ (lines : List Str) (title : Option Str) (cur : List Str) (chunks : List Chunk),
    (((mainLoop maxChars lines title cur chunks).1.map (fun c => filterNW c.text)).flatten ++
      filterNW (joinNl (mainLoop maxChars lines title cur chunks).2.2)) =
    ((chunks.map (fun c => filterNW c.text)).flatten ++ filterNW (joinNl cur) ++
      (lines.map filterNW).flatten) := by
  intro lines
  induction lines with
  | nil => intro title cur chunks; simp [mainLoop]
  | cons ln rest ih =>
    intro title cur chunks
    by_cases hempty : ln = []
    · rw [mainLoop, if_pos hempty]
      rw [ih]
      rw [hempty]
      simp [filterNW]
    · rw [mainLoop_cons_unfold maxChars ln rest title cur chunks hempty]
      by_cases hhead : headingCandidate ln = true
      · simp only [hhead, if_true]
        show (((mainLoop maxChars rest
            (sizeLoop maxChars ((joinNl [ln]).length + 1) (some ln) [ln]
              (flushChunks title cur chunks)).2.1
            (sizeLoop maxChars ((joinNl [ln]).length + 1) (some ln) [ln]
              (flushChunks title cur chunks)).2.2
            (sizeLoop maxChars ((joinNl [ln]).length + 1) (some ln) [ln]
              (flushChunks title cur chunks)).1).1.map (fun c => filterNW c.text)).flatten ++
            filterNW (joinNl (mainLoop maxChars rest
            (sizeLoop maxChars ((joinNl [ln]).length + 1) (some ln) [ln]
              (flushChunks title cur chunks)).2.1
            (sizeLoop maxChars ((joinNl [ln]).length + 1) (some ln) [ln]
              (flushChunks title cur chunks)).2.2
            (sizeLoop maxChars ((joinNl [ln]).length + 1) (some ln) [ln]
              (flushChunks title cur chunks)).1).2.2)) =
          ((chunks.map (fun c => filterNW c.text)).flatten ++ filterNW (joinNl cur) ++
            ((ln :: rest).map filterNW).flatten)
        rw [ih]
        rw [sizeLoop_filterNW]
        rw [flushChunks_filterNW]
        rw [show joinNl [ln] = ln from rfl]
        simp [List.append_assoc]
      · simp only [hhead, if_false]
        show (((mainLoop maxChars rest
            (sizeLoop maxChars ((joinNl (cur ++ [ln])).length + 1) title (cur ++ [ln]) chunks).2.1
            (sizeLoop maxChars ((joinNl (cur ++ [ln])).length + 1) title (cur ++ [ln]) chunks).2.2
            (sizeLoop maxChars ((joinNl (cur ++ [ln])).length + 1) title (cur ++ [ln]) chunks).1).1.map
              (fun c => filterNW c.text)).flatten ++
            filterNW (joinNl (mainLoop maxChars rest
            (sizeLoop maxChars ((joinNl (cur ++ [ln])).length + 1) title (cur ++ [ln]) chunks).2.1
            (sizeLoop maxChars ((joinNl (cur ++ [ln])).length + 1) title (cur ++ [ln]) chunks).2.2
            (sizeLoop maxChars ((joinNl (cur ++ [ln])).length + 1) title (cur ++ [ln]) chunks).1).2.2)) =
          ((chunks.map (fun c => filterNW c.text)).flatten ++ filterNW (joinNl cur) ++
            ((ln :: rest).map filterNW).flatten)
        rw [ih]
        rw [sizeLoop_filterNW]
        have hjoin : filterNW (joinNl (cur ++ [ln])) = filterNW (joinNl cur) ++ filterNW ln := by
          rw [filterNW_joinNl, filterNW_joinNl]
          simp
        rw [hjoin]
        simp [List.append_assoc]

/-- `partWhile` preserves the non-whitespace content. -/
theorem partWhile_filterNW (s : Str) (maxChars : Nat) :
    ∀ (f : Nat) (part : Str) (out : List Chunk),
    (((partWhile s maxChars f part out).1.map (fun c => filterNW c.text)).flatten ++
      filterNW (partWhile s maxChars f part out).2) =
    ((out.map (fun c => filterNW c.text)).flatten ++ filterNW part) := by
  intro f
  induction f with
  | zero => intro part out; rfl
  | succ f ih =>
    intro part out
    rw [partWhile_succ_unfold]
    by_cases hlen : part.length ≤ maxChars
    · rw [if_pos hlen]
    · rw [if_neg hlen]
      rw [ih]
      rw [List.map_append, List.flatten_append]
      rw [show ([⟨contTitle s out, (splitAtSentence part maxChars).1⟩] : List Chunk).map
          (fun c => filterNW c.text) = [filterNW (splitAtSentence part maxChars).1] from rfl]
      rw [List.append_assoc]
      rw [show ([filterNW (splitAtSentence part maxChars).1]).flatten ++
          filterNW (splitAtSentence part maxChars).2 =
        filterNW (splitAtSentence part maxChars).1 ++
          filterNW (splitAtSentence part maxChars).2 from by simp]
      rw [splitAtSentence_filterNW]

/-- `partsFold` preserves the non-whitespace content of all parts. -/
theorem partsFold_filterNW (s : Str) (maxChars : Nat) :
    ∀ (parts : List Str) (out : List Chunk),
    ((partsFold s maxChars parts out).map (fun c => filterNW c.text)).flatten =
      (out.map (fun c => filterNW c.text)).flatten ++ (parts.map filterNW).flatten := by
  intro parts
  induction parts with
  | nil => intro out; simp [partsFold]
  | cons p rest ih =>
    intro out
    rw [partsFold_cons_unfold]
    by_cases hs : strip p = []
    · rw [if_pos hs]
      rw [ih]
      have hp : filterNW p = [] := by
        rw [← filterNW_strip, hs]
        rfl
      simp [hp]
    · rw [if_neg hs]
      show ((partsFold s maxChars rest
          (if (partWhile s maxChars ((strip p).length + 1) (strip p) out).2 = []
           then (partWhile s maxChars ((strip p).length + 1) (strip p) out).1
           else (partWhile s maxChars ((strip p).length + 1) (strip p) out).1 ++
             [⟨contTitle s (partWhile s maxChars ((strip p).length + 1) (strip p) out).1,
               (partWhile s maxChars ((strip p).length + 1) (strip p) out).2⟩])).map
          (fun c => filterNW c.text)).flatten = _
      rw [ih]
      have hpw := partWhile_filterNW s maxChars ((strip p).length + 1) (strip p) out
      have hout3 : ((if (partWhile s maxChars ((strip p).length + 1) (strip p) out).2 = []
           then (partWhile s maxChars ((strip p).length + 1) (strip p) out).1
           else (partWhile s maxChars ((strip p).length + 1) (strip p) out).1 ++
             [⟨contTitle s (partWhile s maxChars ((strip p).length + 1) (strip p) out).1,
               (partWhile s maxChars ((strip p).length + 1) (strip p) out).2⟩]).map
          (fun c => filterNW c.text)).flatten =
          (out.map (fun c => filterNW c.text)).flatten ++ filterNW (strip p) := by
        by_cases h2 : (partWhile s maxChars ((strip p).length + 1) (strip p) out).2 = []
        · rw [if_pos h2]
          rw [← hpw, h2]
          simp [filterNW]
        · rw [if_neg h2]
          rw [List.map_append, List.flatten_append]
          rw [show ([⟨contTitle s (partWhile s maxChars ((strip p).length + 1) (strip p) out).1,
              (partWhile s maxChars ((strip p).length + 1) (strip p) out).2⟩] : List Chunk).map
              (fun c => filterNW c.text) =
            [filterNW (partWhile s maxChars ((strip p).length + 1) (strip p) out).2] from rfl]
          rw [← hpw]
          simp
      rw [hout3]
      rw [filterNW_strip]
      simp

/-- `_split_large_chunk` preserves the non-whitespace content. -/
theorem splitLargeChunk_filterNW (c : Chunk) (maxChars : Nat) :
    ((splitLargeChunk c maxChars).map (fun q => filterNW q.text)).flatten = filterNW c.text := by
  unfold splitLargeChunk
  by_cases hlen : c.text.length ≤ maxChars
  · rw [if_pos hlen]
    simp
  · rw [if_neg hlen]
    show ((if partsFold (if c.sec = [] then unknownLabel else c.sec) maxChars
        (paraSplit c.text) [] = [] then [c]
        else partsFold (if c.sec = [] then unknownLabel else c.sec) maxChars
          (paraSplit c.text) []).map (fun q => filterNW q.text)).flatten = _
    by_cases hres : partsFold (if c.sec = [] then unknownLabel else c.sec) maxChars
        (paraSplit c.text) [] = []
    · rw [if_pos hres]
      simp
    · rw [if_neg hres]
      rw [partsFold_filterNW]
      have hpara : ((paraSplit c.text).map filterNW).flatten = filterNW c.text := by
        unfold paraSplit
        rw [paraSplitAux_filterNW]
        rfl
      rw [hpara]
      rfl

/-- Claim C3 (counterexample): splitting the single line
"Hello. World" under budget 8 cuts at the sentence boundary and drops the
separating space, so the segment lines "Hello." and "World" do not
reproduce the original non-blank line "Hello. World". -/
theorem C3_order_preservation_counterexample :
    (chunk_text c3doc 8).flatMap (fun c => splitNl c.text) ≠ nonBlankLines c3doc := by
  decide

/-- Claim C3 (amended): for every document and positive `max_chars`,
concatenating the segment texts in order reproduces the document's
non-whitespace characters exactly and in order — whitespace alone (blank
lines, line-boundary and sentence-boundary whitespace dropped by the
stripping cuts) may differ, which is what the counterexample forces. -/
theorem C3_content_preservation (doc : Str) (maxChars : Nat) (hm : 1 ≤ maxChars) :
    filterNW ((chunk_text doc maxChars).map Chunk.text).flatten = filterNW doc := by
  rw [chunk_text_unfold]
  have hflat : ∀ (l : List Chunk),
      filterNW ((l.flatMap (fun c => if c.text.length ≤ maxChars then [c]
        else splitLargeChunk c maxChars)).map Chunk.text).flatten =
      ((l.map (fun c => filterNW c.text)).flatten) := by
    intro l
    induction l with
    | nil => rfl
    | cons c r ihl =>
      rw [List.flatMap_cons, List.map_append, List.flatten_append, filterNW_append, ihl]
      congr 1
      by_cases hlen : c.text.length ≤ maxChars
      · rw [if_pos hlen]
        simp [filterNW_append]
      · rw [if_neg hlen]
        rw [filterNW_flatten]
        rw [show ((splitLargeChunk c maxChars).map Chunk.text).map filterNW =
          (splitLargeChunk c maxChars).map (fun q => filterNW q.text) from by
            rw [List.map_map]; rfl]
        exact splitLargeChunk_filterNW c maxChars
  rw [hflat]
  have hstream := mainLoop_filterNW maxChars ((splitNl doc).map strip) none [] []
  have hflush := flushChunks_filterNW
    (mainLoop maxChars ((splitNl doc).map strip) none [] []).2.1
    (mainLoop maxChars ((splitNl doc).map strip) none [] []).2.2
    (mainLoop maxChars ((splitNl doc).map strip) none [] []).1
  rw [hflush]
  rw [hstream]
  show ([] : Str) ++ filterNW (joinNl []) ++ _ = _
  rw [show filterNW (joinNl []) = [] from rfl]
  simp only [List.nil_append, List.append_nil]
  rw [show ((splitNl doc).map strip).map filterNW = (splitNl doc).map filterNW from by
    rw [List.map_map]
    apply List.map_congr_left
    intro l _
    exact filterNW_strip l]
  rw [← filterNW_joinNl, joinNl_splitNl]

/-- Witness for the amended C3 at a concrete document. -/
theorem C3_content_preservation_witness :
    1 ≤ 8 ∧ filterNW ((chunk_text c3doc 8).map Chunk.text).flatten = filterNW c3doc :=
  ⟨by decide, C3_content_preservation c3doc 8 (by decide)⟩

/-! ## Claim C4 -/

/-- `sumLen` over append. -/
theorem sumLen_append (a b : List Str) : sumLen (a ++ b) = sumLen a + sumLen b := by
  simp [sumLen]

/-- The size loop does nothing when the buffer is within budget. -/
theorem sizeLoop_noop (maxChars f : Nat) (title : Option Str) (cur : List Str)
    (chunks : List Chunk) (h : sumLen cur ≤ maxChars) :
    sizeLoop maxChars f title cur chunks = (chunks, title, cur) := by
  cases f with
  | zero => rfl
  | succ f => rw [sizeLoop_succ_unfold, if_pos h]

/-- On heading-free input within budget the streaming pass only
accumulates the non-blank lines. -/
theorem mainLoop_no_heading (maxChars : Nat) :
    ∀ (lines : List Str) (cur : List Str) (chunks : List Chunk),
    (∀ ln ∈ lines, ¬ headingCandidate ln = true) →
    sumLen (cur ++ lines.filter (fun l => !l.isEmpty)) ≤ maxChars →
    mainLoop maxChars lines none cur chunks =
      (chunks, none, cur ++ lines.filter (fun l => !l.isEmpty)) := by
  intro lines
  induction lines with
  | nil => intro cur chunks _ _; simp [mainLoop]
  | cons ln rest ih =>
    intro cur chunks hh hsum
    by_cases hempty : ln = []
    · rw [mainLoop, if_pos hempty]
      have hfil : (ln :: rest).filter (fun l => !l.isEmpty) =
          rest.filter (fun l => !l.isEmpty) := by
        rw [List.filter_cons]
        rw [hempty]
        rfl
      rw [hfil] at hsum ⊢
      exact ih cur chunks (fun l hl => hh l (List.mem_cons_of_mem _ hl)) hsum
    · have hfil : (ln :: rest).filter (fun l => !l.isEmpty) =
          ln :: rest.filter (fun l => !l.isEmpty) := by
        rw [List.filter_cons]
        have : (!ln.isEmpty) = true := by
          cases ln with
          | nil => exact absurd rfl hempty
          | cons a b => rfl
        rw [this]
        rfl
      rw [hfil] at hsum
      rw [mainLoop_cons_unfold maxChars ln rest none cur chunks hempty]
      rw [if_neg (by simpa using hh ln (by simp))]
      have hs1 : sumLen (cur ++ [ln]) ≤ maxChars := by
        have h1 := hsum
        rw [sumLen_append] at h1 ⊢
        have h2 : sumLen (ln :: rest.filter (fun l => !l.isEmpty)) =
            ln.length + sumLen (rest.filter (fun l => !l.isEmpty)) := rfl
        rw [h2] at h1
        have h3 : sumLen [ln] = ln.length + 0 := rfl
        rw [h3]
        omega
      show (match sizeLoop maxChars ((joinNl (cur ++ [ln])).length + 1) none (cur ++ [ln])
            chunks with
          | (chunks3, title3, cur3) => mainLoop maxChars rest title3 cur3 chunks3) = _
      rw [sizeLoop_noop maxChars ((joinNl (cur ++ [ln])).length + 1) none (cur ++ [ln])
        chunks hs1]
      show mainLoop maxChars rest none (cur ++ [ln]) chunks = _
      rw [ih (cur ++ [ln]) chunks (fun l hl => hh l (List.mem_cons_of_mem _ hl))
        (by rw [List.append_assoc]; simpa using hsum)]
      rw [List.append_assoc, hfil]
      rfl

/-- Claim C4 (counterexample): the document "a<nl><nl>b" has no heading
candidate and is already far below the budget, yet `chunk_text` returns a
single segment whose text "a<nl>b" differs from the trimmed input
"a<nl><nl>b" — interior blank lines are discarded, so the output is not the
trimmed input. -/
theorem C4_idempotence_counterexample :
    noHeadingDoc c4doc = true ∧ (strip c4doc).length ≤ 1800 ∧
      (chunk_text c4doc 1800).map Chunk.text ≠ [strip c4doc] :=
  ⟨by decide, by decide, by decide⟩

/-- Claim C4 (amended): for every document with at least one non-blank
line, no heading-candidate line, and whose normalized text — the newline
join of its stripped non-blank lines — fits the budget, `chunk_text`
returns exactly one "UNKNOWN" segment carrying that normalized text
(rather than the trimmed raw input, which may differ by dropped blank
lines and per-line whitespace). -/
theorem C4_single_segment (doc : Str) (maxChars : Nat)
    (h1 : nonBlankLines doc ≠ [])
    (h2 : ∀ ln ∈ (splitNl doc).map strip, ¬ headingCandidate ln = true)
    (h3 : (joinNl (nonBlankLines doc)).length ≤ maxChars) :
    chunk_text doc maxChars = [⟨unknownLabel, joinNl (nonBlankLines doc)⟩] := by
  rw [chunk_text_unfold]
  have hnb : nonBlankLines doc = ((splitNl doc).map strip).filter (fun l => !l.isEmpty) := rfl
  have hsum : sumLen ([] ++ ((splitNl doc).map strip).filter (fun l => !l.isEmpty)) ≤
      maxChars := by
    rw [List.nil_append, ← hnb]
    exact le_trans (sumLen_le_joinNl (nonBlankLines doc)) h3
  rw [mainLoop_no_heading maxChars ((splitNl doc).map strip) [] [] h2 hsum]
  have hclean : ∀ x ∈ nonBlankLines doc, CleanText x := by
    intro x hx
    rw [hnb] at hx
    obtain ⟨hx1, hx2⟩ := List.mem_filter.mp hx
    obtain ⟨l0, hl0, hl0s⟩ := List.mem_map.mp hx1
    have hxne : x ≠ [] := by
      intro hcon
      rw [hcon] at hx2
      simp at hx2
    rw [← hl0s]
    apply cleanText_of_stripped_line
    · rw [hl0s]; exact hxne
    · exact splitNl_mem_no_nl l0 hl0
  have hjclean : CleanText (joinNl (nonBlankLines doc)) := cleanText_joinNl h1 hclean
  show (flushChunks none ([] ++ ((splitNl doc).map strip).filter (fun l => !l.isEmpty))
      []).flatMap (fun c => if c.text.length ≤ maxChars then [c]
        else splitLargeChunk c maxChars) = _
  rw [List.nil_append, ← hnb]
  rw [flushChunks_unfold]
  rw [if_neg h1]
  rw [strip_of_clean hjclean]
  rw [if_neg hjclean.1]
  show ([] ++ [(⟨unknownLabel, joinNl (nonBlankLines doc)⟩ : Chunk)]).flatMap
    (fun c => if c.text.length ≤ maxChars then [c] else splitLargeChunk c maxChars) = _
  rw [List.nil_append]
  rw [List.flatMap_cons]
  rw [show (⟨unknownLabel, joinNl (nonBlankLines doc)⟩ : Chunk).text =
    joinNl (nonBlankLines doc) from rfl]
  rw [if_pos h3]
  rfl

/-- Witness for the amended C4 at the counterexample document. -/
theorem C4_single_segment_witness :
    nonBlankLines c4doc ≠ [] ∧
      (∀ ln ∈ (splitNl c4doc).map strip, ¬ headingCandidate ln = true) ∧
      (joinNl (nonBlankLines c4doc)).length ≤ 1800 ∧
      chunk_text c4doc 1800 = [⟨unknownLabel, joinNl (nonBlankLines c4doc)⟩] :=
  ⟨by decide, by decide, by decide,
    C4_single_segment c4doc 1800 (by decide) (by decide) (by decide)⟩

/-! ## Claim C6 (amended): the extraction round-trip.  First, character
classification and numeral lemmas for the serializer/parser pair. -/

/-- Two characters on opposite sides of the digit test differ. -/
theorem isDigit_ne {c d : Char} (h : isDigit c = true) (hd : isDigit d = false) : c ≠ d := by
  intro he
  rw [he, hd] at h
  exact Bool.false_ne_true h

/-- A digit is not JSON whitespace. -/
theorem isDigit_not_ws {c : Char} (h : isDigit c = true) : jsonWs c = false := by
  cases hw : jsonWs c with
  | false => rfl
  | true =>
    exfalso
    simp only [jsonWs, Bool.or_eq_true, decide_eq_true_eq] at hw
    rcases hw with ((h1 | h1) | h1) | h1 <;> (rw [h1] at h; exact absurd h (by decide))

/-- A digit is not Python whitespace. -/
theorem isDigit_not_space {c : Char} (h : isDigit c = true) : isSpace c = false := by
  cases hw : isSpace c with
  | false => rfl
  | true =>
    exfalso
    simp only [isSpace, Bool.or_eq_true, decide_eq_true_eq] at hw
    rcases hw with ((((h1 | h1) | h1) | h1) | h1) | h1 <;> (rw [h1] at h; exact absurd h (by decide))

/-- `digitChar` produces digits. -/
theorem digitChar_isDigit {d : Nat} (h : d < 10) : isDigit (digitChar d) = true := by
  interval_cases d <;> decide

/-- Code point of a digit character. -/
theorem digitChar_toNat {d : Nat} (h : d < 10) : (digitChar d).toNat = 48 + d := by
  interval_cases d <;> decide

/-- Nonzero digits do not serialize to `'0'`. -/
theorem digitChar_ne_zero {d : Nat} (h1 : 0 < d) (h2 : d < 10) : digitChar d ≠ '0' := by
  interval_cases d <;> decide

/-- Appending one digit multiplies the accumulated value by ten. -/
theorem digitsToNat_append (l : Str) (c : Char) :
    digitsToNat (l ++ [c]) = 10 * digitsToNat l + (c.toNat - 48) := by
  simp [digitsToNat, List.foldl_append]

/-- Every character produced by `natDigitsAux` is a digit. -/
theorem natDigitsAux_all : ∀ (f n : Nat), ∀ c ∈ natDigitsAux f n, isDigit c = true
  | 0, _ => by simp [natDigitsAux]
  | f + 1, n => by
    intro c hc
    rw [natDigitsAux] at hc
    by_cases h0 : n = 0
    · simp [h0] at hc
    · rw [if_neg h0] at hc
      rcases List.mem_append.mp hc with h | h
      · exact natDigitsAux_all f (n / 10) c h
      · simp only [List.mem_singleton] at h
        rw [h]
        exact digitChar_isDigit (Nat.mod_lt n (by norm_num))

/-- `natDigitsAux` followed by `digitsToNat` recovers the number. -/
theorem digitsToNat_natDigitsAux : ∀ (f n : Nat), n ≤ f → digitsToNat (natDigitsAux f n) = n
  | 0, n, h => by
    interval_cases n
    rfl
  | f + 1, n, h => by
    rw [natDigitsAux]
    by_cases h0 : n = 0
    · rw [if_pos h0, h0]
      rfl
    · have hd : n / 10 < n := Nat.div_lt_self (Nat.pos_of_ne_zero h0) (by norm_num)
      rw [if_neg h0, digitsToNat_append, digitsToNat_natDigitsAux f (n / 10) (by omega),
        digitChar_toNat (Nat.mod_lt n (by norm_num))]
      omega

/-- With positive input, `natDigitsAux` starts with a nonzero digit. -/
theorem natDigitsAux_head : ∀ (f n : Nat), n ≠ 0 → n ≤ f →
    ∃ c t, natDigitsAux f n = c :: t ∧ c ≠ '0'
  | 0, n, h0, h => absurd (Nat.le_zero.mp h) h0
  | f + 1, n, h0, h => by
    rw [natDigitsAux, if_neg h0]
    by_cases hq : n / 10 = 0
    · have hz : natDigitsAux f 0 = [] := by cases f <;> rfl
      rw [hq, hz, List.nil_append]
      refine ⟨digitChar (n % 10), [], rfl, ?_⟩
      exact digitChar_ne_zero (by omega) (Nat.mod_lt n (by omega))
    · have hd : n / 10 < n := Nat.div_lt_self (Nat.pos_of_ne_zero h0) (by norm_num)
      obtain ⟨c, t, he, hc⟩ := natDigitsAux_head f (n / 10) hq (by omega)
      exact ⟨c, t ++ [digitChar (n % 10)], by rw [he]; rfl, hc⟩

/-- Every character of `natDigits` is a digit. -/
theorem natDigits_all (n : Nat) : ∀ c ∈ natDigits n, isDigit c = true := by
  intro c hc
  unfold natDigits at hc
  by_cases h : n = 0
  · rw [if_pos h] at hc
    simp only [List.mem_singleton] at hc
    rw [hc]
    decide
  · rw [if_neg h] at hc
    exact natDigitsAux_all n n c hc

/-- `natDigits` followed by `digitsToNat` recovers the number. -/
theorem digitsToNat_natDigits (n : Nat) : digitsToNat (natDigits n) = n := by
  unfold natDigits
  by_cases h : n = 0
  · rw [if_pos h, h]
    rfl
  · rw [if_neg h]
    exact digitsToNat_natDigitsAux n n le_rfl

/-- `natDigits` is a nonempty digit string. -/
theorem natDigits_cons (n : Nat) : ∃ c t, natDigits n = c :: t ∧ isDigit c = true := by
  by_cases h : n = 0
  · exact ⟨'0', [], by rw [natDigits, if_pos h], by decide⟩
  · obtain ⟨c, t, he, _⟩ := natDigitsAux_head n n h le_rfl
    refine ⟨c, t, by rw [natDigits, if_neg h, he], ?_⟩
    exact natDigitsAux_all n n c (he ▸ List.mem_cons_self c t)

/-- For positive input the leading digit of `natDigits` is not `'0'`. -/
theorem natDigits_head_ne_zero {n : Nat} (h : n ≠ 0) :
    ∃ c t, natDigits n = c :: t ∧ isDigit c = true ∧ c ≠ '0' := by
  obtain ⟨c, t, he, hc⟩ := natDigitsAux_head n n h le_rfl
  refine ⟨c, t, by rw [natDigits, if_neg h, he], ?_, hc⟩
  exact natDigitsAux_all n n c (he ▸ List.mem_cons_self c t)

/-- `takeWhile` runs through a block satisfying the predicate. -/
theorem takeWhile_append_all {p : Char → Bool} {l r : Str} (h : ∀ x ∈ l, p x = true) :
    (l ++ r).takeWhile p = l ++ r.takeWhile p := by
  induction l with
  | nil => rfl
  | cons c t ih =>
    rw [List.cons_append, List.takeWhile_cons, h c (List.mem_cons_self c t)]
    simp [ih (fun x hx => h x (List.mem_cons_of_mem c hx))]

/-- `dropWhile` runs through a block satisfying the predicate. -/
theorem dropWhile_append_all {p : Char → Bool} {l r : Str} (h : ∀ x ∈ l, p x = true) :
    (l ++ r).dropWhile p = r.dropWhile p := by
  induction l with
  | nil => rfl
  | cons c t ih =>
    rw [List.cons_append, List.dropWhile_cons]
    simp [h c (List.mem_cons_self c t), ih (fun x hx => h x (List.mem_cons_of_mem c hx))]

/-- A safe remainder does not begin a fraction or exponent. -/
theorem floatStart_of_numSafe {r : Str} (h : numSafe r) : floatStart r = false := by
  cases r with
  | nil => rfl
  | cons c t =>
    obtain ⟨_, h2, h3, h4⟩ := h
    simp [floatStart, h2, h3, h4]

/-- A safe remainder starts with no digit. -/
theorem takeWhile_digit_nil {r : Str} (h : numSafe r) : r.takeWhile isDigit = [] := by
  cases r with
  | nil => rfl
  | cons c t =>
    obtain ⟨h1, _, _, _⟩ := h
    simp [List.takeWhile_cons, h1]

/-- A safe remainder survives `dropWhile isDigit` unchanged. -/
theorem dropWhile_digit_self {r : Str} (h : numSafe r) : r.dropWhile isDigit = r := by
  cases r with
  | nil => rfl
  | cons c t =>
    obtain ⟨h1, _, _, _⟩ := h
    simp [List.dropWhile_cons, h1]

/-- `parseUNum` inverts `natDigits` before a safe remainder. -/
theorem parseUNum_natDigits (n : Nat) {rest : Str} (h : numSafe rest) :
    parseUNum (natDigits n ++ rest) = some (n, rest) := by
  by_cases h0 : n = 0
  · subst h0
    rw [show natDigits 0 ++ rest = '0' :: rest from rfl]
    simp [parseUNum, floatStart_of_numSafe h]
  · obtain ⟨c, t, he, hd, hz⟩ := natDigits_head_ne_zero h0
    have hall : ∀ x ∈ c :: t, isDigit x = true := by
      rw [← he]
      exact natDigits_all n
    have h1 : ((c :: t) ++ rest).takeWhile isDigit = c :: t := by
      rw [takeWhile_append_all hall, takeWhile_digit_nil h, List.append_nil]
    have h2 : ((c :: t) ++ rest).dropWhile isDigit = rest := by
      rw [dropWhile_append_all hall, dropWhile_digit_self h]
    rw [he, List.cons_append]
    simp only [parseUNum, if_neg hz, hd, if_true]
    rw [show (c :: (t ++ rest)) = (c :: t) ++ rest from rfl, h1, h2,
      floatStart_of_numSafe h, ← he, digitsToNat_natDigits]
    rfl

/-- `parseNumber` inverts `serInt` before a safe remainder. -/
theorem parseNumber_serInt (n : Int) {rest : Str} (h : numSafe rest) :
    parseNumber (serInt n ++ rest) = some (JValue.num n, rest) := by
  by_cases hn : n < 0
  · rw [serInt, if_pos hn, List.cons_append]
    simp only [parseNumber, if_pos rfl]
    rw [parseUNum_natDigits n.natAbs h]
    simp only [Option.map_some']
    have hv : -((n.natAbs : Int)) = n := by omega
    rw [hv]
    simp
  · rw [serInt, if_neg hn]
    obtain ⟨c, t, he, hd⟩ := natDigits_cons n.toNat
    rw [he, List.cons_append]
    have hne : ¬(c = '-') := @isDigit_ne c '-' hd (by decide)
    simp only [parseNumber, if_neg hne]
    rw [← List.cons_append, ← he, parseUNum_natDigits n.toNat h]
    simp only [Option.map_some']
    have hv : ((n.toNat : Nat) : Int) = n := by omega
    rw [hv]

/-- `serInt` is nonempty and starts with `'-'` or a digit. -/
theorem serInt_cons (n : Int) : ∃ c t, serInt n = c :: t ∧ (c = '-' ∨ isDigit c = true) := by
  by_cases hn : n < 0
  · exact ⟨'-', natDigits n.natAbs, by rw [serInt, if_pos hn], Or.inl rfl⟩
  · obtain ⟨c, t, he, hd⟩ := natDigits_cons n.toNat
    exact ⟨c, t, by rw [serInt, if_neg hn, he], Or.inr hd⟩

/-- Every serialized value starts with a character that is not whitespace
(in either the decoder's or Python's sense) and closes no bracket. -/
theorem serVal_cons (v : JValue) : ∃ c t, serVal v = c :: t ∧
    jsonWs c = false ∧ isSpace c = false ∧ c ≠ ']' ∧ c ≠ '\x7d' := by
  cases v with
  | null => exact ⟨'n', ['u', 'l', 'l'], rfl, by decide, by decide, by decide, by decide⟩
  | bool b =>
    cases b with
    | true => exact ⟨'t', ['r', 'u', 'e'], rfl, by decide, by decide, by decide, by decide⟩
    | false => exact ⟨'f', ['a', 'l', 's', 'e'], rfl, by decide, by decide, by decide, by decide⟩
  | num n =>
    obtain ⟨c, t, he, hc⟩ := serInt_cons n
    refine ⟨c, t, he, ?_, ?_, ?_, ?_⟩ <;> rcases hc with hc | hc
    · rw [hc]; decide
    · exact isDigit_not_ws hc
    · rw [hc]; decide
    · exact isDigit_not_space hc
    · rw [hc]; decide
    · exact @isDigit_ne c ']' hc (by decide)
    · rw [hc]; decide
    · exact @isDigit_ne c '\x7d' hc (by decide)
  | str s => exact ⟨'"', escapeStr s ++ ['"'], rfl, by decide, by decide, by decide, by decide⟩
  | arr xs => exact ⟨'[', serElems xs ++ [']'], rfl, by decide, by decide, by decide, by decide⟩
  | obj fs => exact ⟨'\x7b', serMembers fs ++ ['\x7d'], rfl, by decide, by decide, by decide, by decide⟩

/-- Serialized elements of a nonempty array start with the first value. -/
theorem serElems_decomp (x : JValue) (t : List JValue) :
    ∃ u, serElems (x :: t) = serVal x ++ u := by
  cases t with
  | nil => exact ⟨[], by simp [serElems]⟩
  | cons y r => exact ⟨',' :: serElems (y :: r), rfl⟩

/-- Serialized members of a nonempty object: key string, colon, value,
then either the end or a comma and the remaining members. -/
theorem serMembers_decomp (kv : Str × JValue) (t : List (Str × JValue)) :
    ∃ u, serMembers (kv :: t) = '"' :: (escapeStr kv.1 ++ '"' :: ':' :: (serVal kv.2 ++ u)) := by
  cases t with
  | nil =>
    refine ⟨[], ?_⟩
    show ('"' :: escapeStr kv.1 ++ ['"']) ++ ':' :: serVal kv.2 = _
    simp
  | cons m r =>
    refine ⟨',' :: serMembers (m :: r), ?_⟩
    show (('"' :: escapeStr kv.1 ++ ['"']) ++ ':' :: serVal kv.2) ++ ',' :: serMembers (m :: r) = _
    simp

/-- `skipWs` is the identity on strings with a non-whitespace head. -/
theorem skipWs_cons_not_ws {c : Char} (r : Str) (h : jsonWs c = false) :
    skipWs (c :: r) = c :: r := by
  simp [skipWs, List.dropWhile_cons, h]

/-- Escaping distributes over cons. -/
theorem escapeStr_cons (c : Char) (t : Str) : escapeStr (c :: t) = escChar c ++ escapeStr t := by
  simp [escapeStr]

/-- One step of `parseStringBody` on a cons, as an equation. -/
theorem parseStringBody_cons (f : Nat) (c : Char) (r : Str) :
    parseStringBody (f + 1) (c :: r) =
      (if c = '"' then some ([], r)
       else if c = '\\' then
         match r with
         | [] => none
         | e :: r1 =>
           if e = '"' then (parseStringBody f r1).map (fun p => ('"' :: p.1, p.2))
           else if e = '\\' then (parseStringBody f r1).map (fun p => ('\\' :: p.1, p.2))
           else if e = '/' then (parseStringBody f r1).map (fun p => ('/' :: p.1, p.2))
           else if e = 'b' then (parseStringBody f r1).map (fun p => ('\x08' :: p.1, p.2))
           else if e = 'f' then (parseStringBody f r1).map (fun p => ('\x0c' :: p.1, p.2))
           else if e = 'n' then (parseStringBody f r1).map (fun p => ('\n' :: p.1, p.2))
           else if e = 'r' then (parseStringBody f r1).map (fun p => ('\r' :: p.1, p.2))
           else if e = 't' then (parseStringBody f r1).map (fun p => ('\t' :: p.1, p.2))
           else if e = 'u' then
             match r1 with
             | a :: b :: c2 :: d :: r2 =>
               match hexVal a, hexVal b, hexVal c2, hexVal d with
               | some ha, some hb, some hc, some hd =>
                 (parseStringBody f r2).map
                   (fun p => (Char.ofNat (((ha * 16 + hb) * 16 + hc) * 16 + hd) :: p.1, p.2))
               | _, _, _, _ => none
             | _ => none
           else none
       else if c.toNat < 32 then none
       else (parseStringBody f r).map (fun p => (c :: p.1, p.2))) := rfl

/-- `parseStringBody` inverts `escapeStr` on control-free strings, given
fuel beyond the escaped length. -/
theorem parseStringBody_escape : ∀ (s : Str) (f : Nat) (rest : Str),
    (escapeStr s).length < f → (∀ c ∈ s, 32 ≤ c.toNat) →
    parseStringBody f (escapeStr s ++ '"' :: rest) = some (s, rest)
  | [], f, rest, hf, _ => by
    obtain ⟨g, rfl⟩ : ∃ g, f = g + 1 := ⟨f - 1, by omega⟩
    rfl
  | c :: t, f, rest, hf, hc => by
    rw [escapeStr_cons] at hf ⊢
    have hct : ∀ x ∈ t, 32 ≤ x.toNat := fun x hx => hc x (List.mem_cons_of_mem _ hx)
    by_cases h1 : c = '"'
    · subst h1
      rw [show escChar '"' = ['\\', '"'] from rfl] at hf ⊢
      obtain ⟨g, rfl⟩ : ∃ g, f = g + 1 := ⟨f - 1, by omega⟩
      have hf' : (escapeStr t).length < g := by
        simp only [List.length_append, List.length_cons] at hf
        omega
      show (parseStringBody g (escapeStr t ++ '"' :: rest)).map (fun p => ('"' :: p.1, p.2)) =
        some ('"' :: t, rest)
      rw [parseStringBody_escape t g rest hf' hct]
      rfl
    · by_cases h2 : c = '\\'
      · subst h2
        rw [show escChar '\\' = ['\\', '\\'] from rfl] at hf ⊢
        obtain ⟨g, rfl⟩ : ∃ g, f = g + 1 := ⟨f - 1, by omega⟩
        have hf' : (escapeStr t).length < g := by
          simp only [List.length_append, List.length_cons] at hf
          omega
        show (parseStringBody g (escapeStr t ++ '"' :: rest)).map (fun p => ('\\' :: p.1, p.2)) =
          some ('\\' :: t, rest)
        rw [parseStringBody_escape t g rest hf' hct]
        rfl
      · rw [show escChar c = if c = '"' then ['\\', '"'] else if c = '\\' then ['\\', '\\'] else [c]
          from rfl, if_neg h1, if_neg h2] at hf ⊢
        obtain ⟨g, rfl⟩ : ∃ g, f = g + 1 := ⟨f - 1, by omega⟩
        have hf' : (escapeStr t).length < g := by
          simp only [List.length_append, List.length_cons] at hf
          omega
        have hctl : ¬(c.toNat < 32) := Nat.not_lt.mpr (hc c (List.mem_cons_self c t))
        rw [List.cons_append, List.nil_append, List.cons_append, parseStringBody_cons,
          if_neg h1, if_neg h2, if_neg hctl,
          parseStringBody_escape t g rest hf' hct]
        rfl

/-- A prefix test fails when the heads differ. -/
theorem isPrefixOf_cons_ne {a c : Char} (l t : Str) (h : ¬(a = c)) :
    (a :: l).isPrefixOf (c :: t) = false := by
  simp [ List.isPrefixOf, h]

/-- `"null"` is no prefix of a string with a digit head. -/
theorem not_pre_null {c : Char} (h : isDigit c = true) (X : Str) :
    ("null".toList).isPrefixOf (c :: X) = false := by
  rw [show "null".toList = 'n' :: ['u', 'l', 'l'] from rfl]
  exact isPrefixOf_cons_ne _ _ (fun he => @isDigit_ne c 'n' h (by decide) he.symm)

/-- `"true"` is no prefix of a string with a digit head. -/
theorem not_pre_true {c : Char} (h : isDigit c = true) (X : Str) :
    ("true".toList).isPrefixOf (c :: X) = false := by
  rw [show "true".toList = 't' :: ['r', 'u', 'e'] from rfl]
  exact isPrefixOf_cons_ne _ _ (fun he => @isDigit_ne c 't' h (by decide) he.symm)

/-- `"false"` is no prefix of a string with a digit head. -/
theorem not_pre_false {c : Char} (h : isDigit c = true) (X : Str) :
    ("false".toList).isPrefixOf (c :: X) = false := by
  rw [show "false".toList = 'f' :: ['a', 'l', 's', 'e'] from rfl]
  exact isPrefixOf_cons_ne _ _ (fun he => @isDigit_ne c 'f' h (by decide) he.symm)

/-- Building a `numSafe` fact from its components. -/
theorem numSafe_cons {c : Char} (r : Str) (h1 : isDigit c = false) (h2 : c ≠ '.')
    (h3 : c ≠ 'e') (h4 : c ≠ 'E') : numSafe (c :: r) := ⟨h1, h2, h3, h4⟩

/-- No whitespace is skipped before a serialized value. -/
theorem skipWs_serVal (v : JValue) (X : Str) : skipWs (serVal v ++ X) = serVal v ++ X := by
  obtain ⟨c, w, hcw, hws, _, _, _⟩ := serVal_cons v
  rw [hcw, List.cons_append, skipWs_cons_not_ws _ hws]

/-- No whitespace is skipped before serialized array elements. -/
theorem skipWs_serElems (y : JValue) (r : List JValue) (X : Str) :
    skipWs (serElems (y :: r) ++ X) = serElems (y :: r) ++ X := by
  obtain ⟨u, hu⟩ := serElems_decomp y r
  rw [hu, List.append_assoc, skipWs_serVal]

/-- No whitespace is skipped before serialized object members. -/
theorem skipWs_serMembers (kv : Str × JValue) (t : List (Str × JValue)) (X : Str) :
    skipWs (serMembers (kv :: t) ++ X) = serMembers (kv :: t) ++ X := by
  obtain ⟨u, hu⟩ := serMembers_decomp kv t
  rw [hu, List.cons_append, skipWs_cons_not_ws _ (by decide)]

mutual

/-- The fuel bound of a value is covered by its serialized length. -/
theorem szVal_le : ∀ (v : JValue), szVal v ≤ (serVal v).length
  | .null => by simp [szVal, serVal]
  | .bool b => by cases b <;> simp [szVal, serVal]
  | .num n => by
    obtain ⟨c, t, he, _⟩ := serInt_cons n
    simp [szVal, serVal, he]
  | .str s => by simp [szVal, serVal]
  | .arr xs => by
    have h := szElems_le xs
    simp only [szVal, serVal, List.length_cons, List.length_append]
    omega
  | .obj fs => by
    have h := szMembers_le fs
    simp only [szVal, serVal, List.length_cons, List.length_append]
    omega

/-- The fuel bound of array elements is covered by their serialized length. -/
theorem szElems_le : ∀ (xs : List JValue), szElems xs ≤ (serElems xs).length + 1
  | [] => by simp [szElems]
  | [x] => by
    have h := szVal_le x
    simp only [szElems, serElems]
    omega
  | x :: y :: r => by
    have h1 := szVal_le x
    have h2 := szElems_le (y :: r)
    show szVal x + szElems (y :: r) + 1 ≤ (serVal x ++ ',' :: serElems (y :: r)).length + 1
    simp only [List.length_append, List.length_cons]
    omega

/-- The fuel bound of object members is covered by their serialized length. -/
theorem szMembers_le : ∀ (fs : List (Str × JValue)), szMembers fs ≤ (serMembers fs).length + 1
  | [] => by simp [szMembers]
  | [kv] => by
    have h := szVal_le kv.2
    simp only [szMembers, serMembers, List.length_append, List.length_cons]
    omega
  | kv :: m :: r => by
    have h1 := szVal_le kv.2
    have h2 := szMembers_le (m :: r)
    show szVal kv.2 + szMembers (m :: r) + 1 ≤
      ((('"' :: escapeStr kv.1 ++ ['"']) ++ ':' :: serVal kv.2) ++ ',' :: serMembers (m :: r)).length + 1
    simp only [List.length_append, List.length_cons]
    omega

end

/-- One step of `parseValue` on a cons, as an equation. -/
theorem parseValue_cons (f : Nat) (c : Char) (r : Str) :
    parseValue (f + 1) (c :: r) =
      (if c = '"' then
        (parseStringBody (r.length + 1) r).map (fun p => (JValue.str p.1, p.2))
      else if c = '[' then
        match skipWs r with
        | [] => (parseElems f []).map (fun p => (JValue.arr p.1, p.2))
        | d :: r2 =>
          if d = ']' then some (JValue.arr [], r2)
          else (parseElems f (d :: r2)).map (fun p => (JValue.arr p.1, p.2))
      else if c = '\x7b' then
        match skipWs r with
        | [] => (parseMembers f []).map (fun p => (JValue.obj p.1, p.2))
        | d :: r2 =>
          if d = '\x7d' then some (JValue.obj [], r2)
          else (parseMembers f (d :: r2)).map (fun p => (JValue.obj p.1, p.2))
      else if ("null".toList).isPrefixOf (c :: r) then some (JValue.null, (c :: r).drop 4)
      else if ("true".toList).isPrefixOf (c :: r) then some (JValue.bool true, (c :: r).drop 4)
      else if ("false".toList).isPrefixOf (c :: r) then some (JValue.bool false, (c :: r).drop 5)
      else parseNumber (c :: r)) := rfl

/-- One step of `parseElems`, as an equation. -/
theorem parseElems_succ (f : Nat) (s : Str) :
    parseElems (f + 1) s =
      (match parseValue f s with
       | none => none
       | some (v, r) =>
         match skipWs r with
         | [] => none
         | d :: r2 =>
           if d = ',' then (parseElems f (skipWs r2)).map (fun p => (v :: p.1, p.2))
           else if d = ']' then some ([v], r2)
           else none) := rfl

/-- One step of `parseMembers`, as an equation. -/
theorem parseMembers_succ (f : Nat) (s : Str) :
    parseMembers (f + 1) s =
      (match s with
       | [] => none
       | c :: r =>
         if c = '"' then
           match parseStringBody (r.length + 1) r with
           | none => none
           | some (k, r2) =>
             match skipWs r2 with
             | [] => none
             | d :: r3 =>
               if d = ':' then
                 match parseValue f (skipWs r3) with
                 | none => none
                 | some (v, r4) =>
                   match skipWs r4 with
                   | [] => none
                   | e :: r5 =>
                     if e = ',' then (parseMembers f (skipWs r5)).map (fun p => ((k, v) :: p.1, p.2))
                     else if e = '\x7d' then some ([(k, v)], r5)
                     else none
               else none
         else none) := rfl

/-- The parser inverts the serializer: on a control-free value with enough
fuel, `parseValue` consumes exactly the serialized text, leaving any safe
remainder; likewise for element and member lists before their closing
bracket. -/
theorem parse_ser : ∀ f : Nat,
    (∀ (v : JValue) (rest : Str), goodVal v → szVal v ≤ f → numSafe rest →
      parseValue f (serVal v ++ rest) = some (v, rest)) ∧
    (∀ (xs : List JValue) (rest : Str), xs ≠ [] → goodElems xs → szElems xs ≤ f →
      parseElems f (serElems xs ++ ']' :: rest) = some (xs, rest)) ∧
    (∀ (ms : List (Str × JValue)) (rest : Str), ms ≠ [] → goodMembers ms → szMembers ms ≤ f →
      parseMembers f (serMembers ms ++ '\x7d' :: rest) = some (ms, rest)) := by
  intro f
  induction f with
  | zero =>
    refine ⟨fun v rest _ hsz _ => ?_, fun xs rest hne _ hsz => ?_, fun ms rest hne _ hsz => ?_⟩
    · exfalso
      cases v <;> simp [szVal] at hsz
    · exfalso
      cases xs with
      | nil => exact hne rfl
      | cons x t => simp [szElems] at hsz
    · exfalso
      cases ms with
      | nil => exact hne rfl
      | cons kv t => simp [szMembers] at hsz
  | succ g ih =>
    obtain ⟨ihv, ihe, ihm⟩ := ih
    refine ⟨?_, ?_, ?_⟩
    · intro v rest hg hsz hns
      cases v with
      | null =>
        show parseValue (g + 1) ('n' :: (['u', 'l', 'l'] ++ rest)) = some (JValue.null, rest)
        rw [parseValue_cons]
        simp [List.isPrefixOf]
      | bool b =>
        cases b with
        | true =>
          show parseValue (g + 1) ('t' :: (['r', 'u', 'e'] ++ rest)) = some (JValue.bool true, rest)
          rw [parseValue_cons]
          simp [List.isPrefixOf]
        | false =>
          show parseValue (g + 1) ('f' :: (['a', 'l', 's', 'e'] ++ rest))
            = some (JValue.bool false, rest)
          rw [parseValue_cons]
          simp [List.isPrefixOf]
      | num n =>
        obtain ⟨c, t, he, hc⟩ := serInt_cons n
        rw [show serVal (JValue.num n) = serInt n from rfl, he, List.cons_append]
        rcases hc with hc | hc
        · subst hc
          show parseNumber ('-' :: (t ++ rest)) = some (JValue.num n, rest)
          rw [show ('-' : Char) :: (t ++ rest) = serInt n ++ rest from by rw [he]; rfl]
          exact parseNumber_serInt n hns
        · rw [parseValue_cons,
            if_neg (@isDigit_ne c '"' hc (by decide)),
            if_neg (@isDigit_ne c '[' hc (by decide)),
            if_neg (@isDigit_ne c '\x7b' hc (by decide)),
            if_neg (by rw [not_pre_null hc]; simp),
            if_neg (by rw [not_pre_true hc]; simp),
            if_neg (by rw [not_pre_false hc]; simp)]
          rw [show c :: (t ++ rest) = serInt n ++ rest from by rw [he]; rfl]
          exact parseNumber_serInt n hns
      | str s =>
        show parseValue (g + 1) (('"' :: (escapeStr s ++ ['"'])) ++ rest) = _
        rw [List.cons_append, parseValue_cons, if_pos rfl, List.append_assoc,
          List.singleton_append,
          parseStringBody_escape s _ rest
            (by simp only [List.length_append, List.length_cons]; omega) hg]
        rfl
      | arr xs =>
        cases xs with
        | nil =>
          show parseValue (g + 1) ('[' :: ([']'] ++ rest)) = some (JValue.arr [], rest)
          rw [parseValue_cons, List.singleton_append,
            skipWs_cons_not_ws rest (by decide : jsonWs ']' = false)]
          simp
        | cons x xt =>
          have hsz' : szElems (x :: xt) ≤ g := by
            have h1 : szVal (JValue.arr (x :: xt)) = szElems (x :: xt) + 1 := rfl
            omega
          show parseValue (g + 1) (('[' :: (serElems (x :: xt) ++ [']'])) ++ rest) = _
          rw [List.cons_append, parseValue_cons, if_neg (by decide), if_pos rfl,
            List.append_assoc, List.singleton_append]
          obtain ⟨u, hu⟩ := serElems_decomp x xt
          obtain ⟨c, w, hcw, hws, _, hne1, _⟩ := serVal_cons x
          rw [hu, hcw, List.cons_append, List.cons_append,
            skipWs_cons_not_ws _ hws]
          show (if c = ']' then some (JValue.arr [], (w ++ u) ++ ']' :: rest)
            else (parseElems g (c :: ((w ++ u) ++ ']' :: rest))).map
              (fun p => (JValue.arr p.1, p.2))) = some (JValue.arr (x :: xt), rest)
          rw [if_neg hne1,
            show c :: ((w ++ u) ++ ']' :: rest) = serElems (x :: xt) ++ ']' :: rest from by
              rw [hu, hcw]
              simp,
            ihe (x :: xt) rest (by simp) hg hsz']
          rfl
      | obj fs =>
        cases fs with
        | nil =>
          show parseValue (g + 1) ('\x7b' :: (['\x7d'] ++ rest)) = some (JValue.obj [], rest)
          rw [parseValue_cons, List.singleton_append,
            skipWs_cons_not_ws rest (by decide : jsonWs '\x7d' = false)]
          simp
        | cons kv t =>
          have hsz' : szMembers (kv :: t) ≤ g := by
            have h1 : szVal (JValue.obj (kv :: t)) = szMembers (kv :: t) + 1 := rfl
            omega
          show parseValue (g + 1) (('\x7b' :: (serMembers (kv :: t) ++ ['\x7d'])) ++ rest) = _
          rw [List.cons_append, parseValue_cons, if_neg (by decide), if_neg (by decide),
            if_pos rfl, List.append_assoc, List.singleton_append]
          obtain ⟨u, hu⟩ := serMembers_decomp kv t
          rw [hu, List.cons_append, skipWs_cons_not_ws _ (by decide)]
          show (parseMembers g
              ('"' :: ((escapeStr kv.1 ++ '"' :: ':' :: (serVal kv.2 ++ u)) ++ '\x7d' :: rest))).map
              (fun p => (JValue.obj p.1, p.2)) = some (JValue.obj (kv :: t), rest)
          rw [show ('"' :: ((escapeStr kv.1 ++ '"' :: ':' :: (serVal kv.2 ++ u)) ++ '\x7d' :: rest))
              = serMembers (kv :: t) ++ '\x7d' :: rest from by
              rw [hu]
              simp,
            ihm (kv :: t) rest (by simp) hg hsz']
          rfl
    · intro xs rest hne hg hsz
      cases xs with
      | nil => exact absurd rfl hne
      | cons x t =>
        cases t with
        | nil =>
          have hszv : szVal x ≤ g := by
            have h1 : szElems [x] = szVal x + 0 + 1 := rfl
            omega
          rw [parseElems_succ,
            show serElems [x] ++ ']' :: rest = serVal x ++ ']' :: rest from rfl,
            ihv x (']' :: rest) hg.1 hszv
              (numSafe_cons _ (by decide) (by decide) (by decide) (by decide))]
          rfl
        | cons y r2 =>
          have h1 : szElems (x :: y :: r2) = szVal x + szElems (y :: r2) + 1 := rfl
          have hszv : szVal x ≤ g := by omega
          have hsze : szElems (y :: r2) ≤ g := by omega
          rw [parseElems_succ,
            show serElems (x :: y :: r2) ++ ']' :: rest
              = serVal x ++ (',' :: (serElems (y :: r2) ++ ']' :: rest)) from by
                show (serVal x ++ ',' :: serElems (y :: r2)) ++ ']' :: rest = _
                simp,
            ihv x _ hg.1 hszv
              (numSafe_cons _ (by decide) (by decide) (by decide) (by decide))]
          show (parseElems g (skipWs (serElems (y :: r2) ++ ']' :: rest))).map
            (fun p => (x :: p.1, p.2)) = some (x :: y :: r2, rest)
          rw [skipWs_serElems, ihe (y :: r2) rest (by simp) hg.2 hsze]
          rfl
    · intro ms rest hne hg hsz
      cases ms with
      | nil => exact absurd rfl hne
      | cons kv t =>
        cases t with
        | nil =>
          have hszv : szVal kv.2 ≤ g := by
            have h1 : szMembers [kv] = szVal kv.2 + 0 + 1 := rfl
            omega
          rw [parseMembers_succ,
            show serMembers [kv] ++ '\x7d' :: rest
              = '"' :: (escapeStr kv.1 ++ '"' :: (':' :: (serVal kv.2 ++ '\x7d' :: rest))) from by
                show (('"' :: escapeStr kv.1 ++ ['"']) ++ ':' :: serVal kv.2) ++ '\x7d' :: rest = _
                simp]
          show (match parseStringBody
                ((escapeStr kv.1 ++ '"' :: (':' :: (serVal kv.2 ++ '\x7d' :: rest))).length + 1)
                (escapeStr kv.1 ++ '"' :: (':' :: (serVal kv.2 ++ '\x7d' :: rest))) with
            | none => none
            | some (k, r2) =>
              match skipWs r2 with
              | [] => none
              | d :: r3 =>
                if d = ':' then
                  match parseValue g (skipWs r3) with
                  | none => none
                  | some (v, r4) =>
                    match skipWs r4 with
                    | [] => none
                    | e :: r5 =>
                      if e = ',' then
                        (parseMembers g (skipWs r5)).map (fun p => ((k, v) :: p.1, p.2))
                      else if e = '\x7d' then some ([(k, v)], r5)
                      else none
                else none) = some ([kv], rest)
          rw [parseStringBody_escape kv.1 _ (':' :: (serVal kv.2 ++ '\x7d' :: rest))
              (by simp only [List.length_append, List.length_cons]; omega) hg.1]
          show (match parseValue g (skipWs (serVal kv.2 ++ '\x7d' :: rest)) with
            | none => none
            | some (v, r4) =>
              match skipWs r4 with
              | [] => none
              | e :: r5 =>
                if e = ',' then
                  (parseMembers g (skipWs r5)).map (fun p => ((kv.1, v) :: p.1, p.2))
                else if e = '\x7d' then some ([(kv.1, v)], r5)
                else none) = some ([kv], rest)
          rw [skipWs_serVal,
            ihv kv.2 ('\x7d' :: rest) hg.2.1 hszv
              (numSafe_cons _ (by decide) (by decide) (by decide) (by decide))]
          rfl
        | cons m r =>
          have h1 : szMembers (kv :: m :: r) = szVal kv.2 + szMembers (m :: r) + 1 := rfl
          have hszv : szVal kv.2 ≤ g := by omega
          have hszm : szMembers (m :: r) ≤ g := by omega
          rw [parseMembers_succ,
            show serMembers (kv :: m :: r) ++ '\x7d' :: rest
              = '"' :: (escapeStr kv.1 ++ '"' ::
                  (':' :: (serVal kv.2 ++ ',' :: (serMembers (m :: r) ++ '\x7d' :: rest)))) from by
                show ((('"' :: escapeStr kv.1 ++ ['"']) ++ ':' :: serVal kv.2)
                  ++ ',' :: serMembers (m :: r)) ++ '\x7d' :: rest = _
                simp]
          show (match parseStringBody
                ((escapeStr kv.1 ++ '"' ::
                  (':' :: (serVal kv.2 ++ ',' :: (serMembers (m :: r) ++ '\x7d' :: rest)))).length + 1)
                (escapeStr kv.1 ++ '"' ::
                  (':' :: (serVal kv.2 ++ ',' :: (serMembers (m :: r) ++ '\x7d' :: rest)))) with
            | none => none
            | some (k, r2) =>
              match skipWs r2 with
              | [] => none
              | d :: r3 =>
                if d = ':' then
                  match parseValue g (skipWs r3) with
                  | none => none
                  | some (v, r4) =>
                    match skipWs r4 with
                    | [] => none
                    | e :: r5 =>
                      if e = ',' then
                        (parseMembers g (skipWs r5)).map (fun p => ((k, v) :: p.1, p.2))
                      else if e = '\x7d' then some ([(k, v)], r5)
                      else none
                else none) = some (kv :: m :: r, rest)
          rw [parseStringBody_escape kv.1 _
              (':' :: (serVal kv.2 ++ ',' :: (serMembers (m :: r) ++ '\x7d' :: rest)))
              (by simp only [List.length_append, List.length_cons]; omega) hg.1]
          show (match parseValue g
                (skipWs (serVal kv.2 ++ ',' :: (serMembers (m :: r) ++ '\x7d' :: rest))) with
            | none => none
            | some (v, r4) =>
              match skipWs r4 with
              | [] => none
              | e :: r5 =>
                if e = ',' then
                  (parseMembers g (skipWs r5)).map (fun p => ((kv.1, v) :: p.1, p.2))
                else if e = '\x7d' then some ([(kv.1, v)], r5)
                else none) = some (kv :: m :: r, rest)
          rw [skipWs_serVal,
            ihv kv.2 (',' :: (serMembers (m :: r) ++ '\x7d' :: rest)) hg.2.1 hszv
              (numSafe_cons _ (by decide) (by decide) (by decide) (by decide))]
          show (parseMembers g (skipWs (serMembers (m :: r) ++ '\x7d' :: rest))).map
            (fun p => ((kv.1, kv.2) :: p.1, p.2)) = some (kv :: m :: r, rest)
          rw [skipWs_serMembers, ihm (m :: r) rest (by simp) hg.2.2 hszm]
          rfl

/-- `json_loads` accepts a bare serialized control-free value. -/
theorem json_loads_ser (v : JValue) (hg : goodVal v) : json_loads (serVal v) = some v := by
  unfold json_loads
  have h0 : skipWs (serVal v) = serVal v := by
    have h := skipWs_serVal v []
    simpa using h
  rw [h0]
  have h1 := (parse_ser ((serVal v).length + 1)).1 v [] hg
    (le_trans (szVal_le v) (Nat.le_succ _)) trivial
  rw [List.append_nil] at h1
  rw [h1]
  rfl

/-- Without a backtick the fence pattern matches at no position. -/
theorem fenceAt_none {s : Str} (h : '\x60' ∉ s) : fenceAt s = none := by
  unfold fenceAt
  rw [if_neg ?hcond]
  case hcond =>
    intro hp
    rw [ List.isPrefixOf_iff_prefix] at hp
    exact h (hp.sublist.subset (by decide))

/-- Without a backtick the fence search fails. -/
theorem fenceSearch_none {s : Str} (h : '\x60' ∉ s) : fenceSearch s = none := by
  induction s with
  | nil => rfl
  | cons c r ih =>
    have h1 : fenceAt (c :: r) = none := fenceAt_none h
    rw [fenceSearch, h1]
    exact ih (fun hm => h (List.mem_cons_of_mem _ hm))

/-- `findIdx?` finds the first position where the predicate holds. -/
theorem findIdx?_first {p : Char → Bool} : ∀ (a : Str) {c : Char} (b : Str) (i : Nat),
    (∀ x ∈ a, p x = false) → p c = true →
    List.findIdx? p (a ++ c :: b) i = some (i + a.length)
  | [], c, b, i, _, hc => by
    rw [List.nil_append, List.findIdx?_cons, if_pos hc]
    simp
  | x :: t, c, b, i, h, hc => by
    rw [List.cons_append, List.findIdx?_cons,
      if_neg (by simp [h x (List.mem_cons_self x t)]),
      findIdx?_first t b (i + 1) (fun y hy => h y (List.mem_cons_of_mem x hy)) hc]
    simp [List.length_cons]
    omega

/-- In a strictly ascending list every member is at most the last element. -/
theorem pairwise_le_getLast : ∀ (l : List Nat), l.Pairwise (· < ·) →
    ∀ x ∈ l, ∀ m, l.getLast? = some m → x ≤ m := by
  intro l
  induction l with
  | nil =>
    intro _ x hx
    simp at hx
  | cons a t ih =>
    intro hp x hx m hm
    cases t with
    | nil =>
      simp at hm hx
      omega
    | cons b r =>
      rw [List.getLast?_cons_cons] at hm
      rcases List.mem_cons.mp hx with rfl | hx2
      · have hmem : m ∈ b :: r := mem_of_getLast?_eq _ _ hm
        have := (List.pairwise_cons.mp hp).1 m hmem
        omega
      · exact ih (List.pairwise_cons.mp hp).2 x hx2 m hm

/-- Characterization of `lastIdxOf`: the position holds the character and no
later position does. -/
theorem lastIdxOf_eq {c : Char} {s : Str} {k : Nat} (h1 : k < s.length)
    (h2 : s.getD k ' ' = c) (h3 : ∀ j, k < j → j < s.length → s.getD j ' ' ≠ c) :
    lastIdxOf c s = some k := by
  unfold lastIdxOf
  have hkF : k ∈ (List.range s.length).filter (fun i => s.getD i ' ' = c) := by
    rw [List.mem_filter, List.mem_range]
    exact ⟨h1, by simp only [decide_eq_true_eq]; exact h2⟩
  have hpw : ((List.range s.length).filter (fun i => s.getD i ' ' = c)).Pairwise (· < ·) :=
    (List.pairwise_lt_range s.length).sublist (List.filter_sublist _)
  cases hget : ((List.range s.length).filter (fun i => s.getD i ' ' = c)).getLast? with
  | none =>
    have hnil : (List.range s.length).filter (fun i => s.getD i ' ' = c) = [] := by
      simpa using hget
    rw [hnil] at hkF
    simp at hkF
  | some m =>
    have hmF := mem_of_getLast?_eq _ _ hget
    have hm2 := List.mem_filter.mp hmF
    have hmlt : m < s.length := List.mem_range.mp hm2.1
    have hmc : s.getD m ' ' = c := by simpa using hm2.2
    have hkm : k ≤ m := pairwise_le_getLast _ hpw k hkF m hget
    have hmk : m ≤ k := by
      by_contra hcon
      exact h3 m (by omega) hmlt hmc
    have hmkeq : m = k := by omega
    rw [hmkeq]

/-- `dropWhile` stops no later than a non-whitespace separator. -/
theorem dropWhile_space_mid {a : Str} {c : Char} {X : Str} (h : isSpace c = false) :
    (a ++ c :: X).dropWhile isSpace = a.dropWhile isSpace ++ c :: X := by
  induction a with
  | nil => simp [List.dropWhile_cons, h]
  | cons x t ih =>
    cases hx : isSpace x with
    | true => simpa [List.dropWhile_cons, hx] using ih
    | false => simp [List.dropWhile_cons, hx]

/-- Left strip stops at a non-whitespace head of the middle part. -/
theorem lstrip_append_mid {a : Str} {c : Char} {X : Str} (h : isSpace c = false) :
    lstrip (a ++ c :: X) = lstrip a ++ c :: X :=
  dropWhile_space_mid h

/-- Right strip stops at a non-whitespace last of the middle part. -/
theorem rstrip_append_mid {a : Str} {c : Char} {X : Str} (h : isSpace c = false) :
    rstrip ((X ++ [c]) ++ a) = (X ++ [c]) ++ rstrip a := by
  unfold rstrip
  rw [List.reverse_append, List.reverse_append, List.reverse_singleton,
    List.singleton_append, dropWhile_space_mid h]
  simp

/-- The last element of a concatenation with a singleton, by index. -/
theorem getElem?_concat_len {l : Str} {c : Char} : (l ++ [c])[l.length]? = some c := by
  rw [List.getElem?_append_right le_rfl]
  simp

/-- Stripping prose around a serialized object strips only the prose. -/
theorem strip_around_obj (p1 p2 : Str) (fs : List (Str × JValue)) :
    strip (p1 ++ serVal (JValue.obj fs) ++ p2)
      = lstrip p1 ++ serVal (JValue.obj fs) ++ rstrip p2 := by
  have hL : lstrip (p1 ++ serVal (JValue.obj fs) ++ p2)
      = lstrip p1 ++ (serVal (JValue.obj fs) ++ p2) := by
    rw [show p1 ++ serVal (JValue.obj fs) ++ p2
        = p1 ++ '\x7b' :: ((serMembers fs ++ ['\x7d']) ++ p2) from by
          rw [List.append_assoc]
          rfl,
      lstrip_append_mid (by decide)]
    rfl
  unfold strip
  rw [hL,
    show lstrip p1 ++ (serVal (JValue.obj fs) ++ p2)
      = ((lstrip p1 ++ ('\x7b' :: serMembers fs)) ++ ['\x7d']) ++ p2 from by
        rw [show serVal (JValue.obj fs) = '\x7b' :: (serMembers fs ++ ['\x7d']) from rfl]
        simp,
    rstrip_append_mid (by decide),
    show serVal (JValue.obj fs) = '\x7b' :: (serMembers fs ++ ['\x7d']) from rfl]
  simp

/-- The greedy brace span of prose around a serialized object, when the
leading prose has no opening brace and the trailing prose no closing brace,
is exactly the object text. -/
theorem braceSpan_embed (p1 p2 : Str) (fs : List (Str × JValue))
    (h1 : '\x7b' ∉ p1) (h2 : '\x7d' ∉ p2) :
    braceSpan (p1 ++ serVal (JValue.obj fs) ++ p2) = some (serVal (JValue.obj fs)) := by
  have hmlen : (serVal (JValue.obj fs)).length = (serMembers fs).length + 2 := by
    rw [show serVal (JValue.obj fs) = '\x7b' :: (serMembers fs ++ ['\x7d']) from rfl]
    simp
  have hfind : List.findIdx? (fun c => c = '\x7b') (p1 ++ serVal (JValue.obj fs) ++ p2) 0
      = some p1.length := by
    rw [show p1 ++ serVal (JValue.obj fs) ++ p2
        = p1 ++ '\x7b' :: ((serMembers fs ++ ['\x7d']) ++ p2) from by
          rw [List.append_assoc]
          rfl,
      findIdx?_first p1 _ 0
        (fun x hx => by
          simp only [decide_eq_false_iff_not]
          exact fun he => h1 (he ▸ hx))
        (by simp)]
    simp
  have hmid : serVal (JValue.obj fs) = ('\x7b' :: serMembers fs) ++ ['\x7d'] := by
    rw [show serVal (JValue.obj fs) = '\x7b' :: (serMembers fs ++ ['\x7d']) from rfl]
    simp
  have e2 : (serVal (JValue.obj fs))[(serVal (JValue.obj fs)).length - 1]? = some '\x7d' := by
    rw [show (serVal (JValue.obj fs)).length - 1 = ('\x7b' :: serMembers fs).length from by
      rw [hmlen]
      simp]
    conv_lhs => rw [hmid]
    exact getElem?_concat_len
  have hlast : lastIdxOf '\x7d' (p1 ++ serVal (JValue.obj fs) ++ p2)
      = some (p1.length + (serVal (JValue.obj fs)).length - 1) := by
    apply lastIdxOf_eq
    · simp only [List.length_append]
      omega
    · rw [List.getD_eq_getElem?_getD,
        List.getElem?_append_left
          (by simp only [List.length_append]; omega
            : p1.length + (serVal (JValue.obj fs)).length - 1
              < (p1 ++ serVal (JValue.obj fs)).length),
        List.getElem?_append_right
          (by omega : p1.length ≤ p1.length + (serVal (JValue.obj fs)).length - 1),
        show p1.length + (serVal (JValue.obj fs)).length - 1 - p1.length
          = (serVal (JValue.obj fs)).length - 1 from by omega,
        e2]
      rfl
    · intro j hj1 hj2 hcon
      rw [List.getD_eq_getElem?_getD,
        show p1 ++ serVal (JValue.obj fs) ++ p2 = (p1 ++ serVal (JValue.obj fs)) ++ p2 from rfl,
        List.getElem?_append_right
          (by simp only [List.length_append]; omega
            : (p1 ++ serVal (JValue.obj fs)).length ≤ j)] at hcon
      cases hp : p2[j - (p1 ++ serVal (JValue.obj fs)).length]? with
      | none =>
        rw [hp] at hcon
        simp at hcon
      | some d =>
        rw [hp] at hcon
        simp only [Option.getD_some] at hcon
        exact h2 (hcon ▸ List.getElem?_mem hp)
  unfold braceSpan
  rw [hfind, hlast]
  show (if p1.length < p1.length + (serVal (JValue.obj fs)).length - 1 then
      some (((p1 ++ serVal (JValue.obj fs) ++ p2).drop p1.length).take
        (p1.length + (serVal (JValue.obj fs)).length - 1 + 1 - p1.length))
    else none) = some (serVal (JValue.obj fs))
  rw [if_pos (by omega : p1.length < p1.length + (serVal (JValue.obj fs)).length - 1),
    show p1.length + (serVal (JValue.obj fs)).length - 1 + 1 - p1.length
      = (serVal (JValue.obj fs)).length from by omega,
    List.append_assoc, List.drop_left, List.take_left]

/-- Claim C6, amended: a well-formed JSON object (strings free of control
characters) serialized into surrounding prose is recovered exactly by
`_extract_json_obj`, provided the text has no backtick, the prose before
the object has no opening brace, and the prose after it has no closing
brace. -/
theorem C6_extraction_roundtrip_amended (fs : List (Str × JValue)) (p1 p2 : Str)
    (hgood : goodMembers fs) (hb1 : '\x7b' ∉ p1) (hb2 : '\x7d' ∉ p2)
    (hbt : '\x60' ∉ p1 ++ serVal (JValue.obj fs) ++ p2) :
    _extract_json_obj (p1 ++ serVal (JValue.obj fs) ++ p2) = some (JValue.obj fs) := by
  have hstrip := strip_around_obj p1 p2 fs
  have hlen0 : 0 < (serVal (JValue.obj fs)).length := by
    rw [show serVal (JValue.obj fs) = '\x7b' :: (serMembers fs ++ ['\x7d']) from rfl]
    simp
  have hne : strip (p1 ++ serVal (JValue.obj fs) ++ p2) ≠ [] := by
    rw [hstrip]
    intro hcon
    have hlen := congrArg List.length hcon
    simp only [List.length_append, List.length_nil] at hlen
    omega
  have hb1' : '\x7b' ∉ lstrip p1 := fun hm => hb1 ((lstrip_suffix p1).sublist.subset hm)
  have hb2' : '\x7d' ∉ rstrip p2 := fun hm => hb2 ((rstrip_pre p2).sublist.subset hm)
  have hbt' : '\x60' ∉ lstrip p1 ++ serVal (JValue.obj fs) ++ rstrip p2 := by
    rw [← hstrip]
    exact fun hm => hbt ((strip_inf _).sublist.subset hm)
  have hf : fenceSearch (lstrip p1 ++ serVal (JValue.obj fs) ++ rstrip p2) = none :=
    fenceSearch_none hbt'
  have hstrat2 : (match braceSpan (lstrip p1 ++ serVal (JValue.obj fs) ++ rstrip p2) with
      | some sp => json_loads sp
      | none => none) = some (JValue.obj fs) := by
    rw [braceSpan_embed _ _ fs hb1' hb2']
    exact json_loads_ser _ hgood
  unfold _extract_json_obj
  rw [if_neg hne]
  show (match (match fenceSearch (strip (p1 ++ serVal (JValue.obj fs) ++ p2)) with
        | some g2 => json_loads g2
        | none => none) with
      | some v => some v
      | none =>
        match (match braceSpan (strip (p1 ++ serVal (JValue.obj fs) ++ p2)) with
            | some sp => json_loads sp
            | none => none) with
        | some v => some v
        | none =>
          match (if (lstrip (strip (p1 ++ serVal (JValue.obj fs) ++ p2))).head? = some '"' then
              json_loads ('\x7b' :: lstrip (strip (p1 ++ serVal (JValue.obj fs) ++ p2)))
            else none) with
          | some v => some v
          | none =>
            json_loads (subCommaClose ']'
              ((subCommaClose '\x7d' ((strip (p1 ++ serVal (JValue.obj fs) ++ p2)).length + 1)
                (strip (p1 ++ serVal (JValue.obj fs) ++ p2))).length + 1)
              (subCommaClose '\x7d' ((strip (p1 ++ serVal (JValue.obj fs) ++ p2)).length + 1)
                (strip (p1 ++ serVal (JValue.obj fs) ++ p2))))) = some (JValue.obj fs)
  rw [hstrip, hf, hstrat2]

/-- Witness for the amended C6 claim, at the concrete output
`out: \x7b"a":1\x7d done`. -/
theorem C6_extraction_roundtrip_amended_witness :
    goodMembers c6wfs ∧ '\x7b' ∉ c6p1 ∧ '\x7d' ∉ c6p2 ∧
      '\x60' ∉ c6p1 ++ serVal (JValue.obj c6wfs) ++ c6p2 ∧
      _extract_json_obj (c6p1 ++ serVal (JValue.obj c6wfs) ++ c6p2) = some (JValue.obj c6wfs) :=
  ⟨⟨by decide, trivial, trivial⟩, by decide, by decide, by decide,
    C6_extraction_roundtrip_amended c6wfs c6p1 c6p2 ⟨by decide, trivial, trivial⟩
      (by decide) (by decide) (by decide)⟩

end ClauseCopilot
